import Mathlib

/-!
# LAR archive container (util/lar/stream.c): shallow embedding

Conventions of the embedding.

* The mapped region `lar->map` is a function from byte offsets (relative to the
  start of the mapping) to byte values.  Offsets are natural numbers: pointer
  arithmetic `lar->map + n` does not wrap (flat 64-bit address space), while
  every `u32` computation is reduced modulo `2^32` where the C code computes in
  `u32`.
* A C `int` that carries a converted `u32` (the results of `lar_read_size` and
  `lar_empty_offset`) is represented by its 32-bit two's-complement word, so
  `-1` is the word `0xFFFFFFFF`.
* C strings (names) are lists of their bytes without the terminating NUL.
* `lar.h` and `lib.h` are not part of the sources at hand: the constants, the
  header layout and the compression registry are parameters (`Config`, `World`).
* System calls and the allocator are part of the `World`: their outcomes are
  inputs of the model.
-/

namespace Lar

/-- Byte-addressed memory, indexed by the offset from the start of the mapping. -/
abbrev Mem := Nat → Nat

/-- Name or file content: a list of byte values. -/
abbrev Bytes := List Nat

/-- Conversion of an integer to `u32` (reduction modulo `2^32`). -/
def u32 (x : Int) : Nat := (x % 4294967296).toNat

/-- The word `-1` of a C `int`. -/
def neg1 : Nat := 4294967295

/-- Constants and the header layout of `lar.h`, and the byte order of the host.
The field offsets are the `offsetof` values of `struct lar_header`. -/
structure Config where
  /-- Bytes of `MAGIC` (the 8 that are compared and copied). -/
  MAGIC : Bytes
  BOOTBLOCK_SIZE : Nat
  /-- Bytes of `BOOTBLOCK_NAME` without the terminator. -/
  BOOTBLOCK_NAME : Bytes
  BOOTBLOCK_NAME_LEN : Nat
  MAX_PATHLEN : Nat
  /-- Value of `sizeof(struct lar_header)`. -/
  sizeof_lar_header : Nat
  off_checksum : Nat
  off_reallen : Nat
  off_len : Nat
  off_offset : Nat
  off_compression : Nat
  /-- Whether the host stores a `u32` most significant byte first. -/
  host_big_endian : Bool

/-- Two 4-byte fields at offsets `a` and `b` do not share a byte. -/
def fields_apart (a b : Nat) : Prop := a + 4 ≤ b ∨ b + 4 ≤ a

instance (a b : Nat) : Decidable (fields_apart a b) := by
  unfold fields_apart; infer_instance

/-- A header field at offset `a` lies after the magic and inside the header. -/
def field_inside (cfg : Config) (a : Nat) : Prop := 8 ≤ a ∧ a + 4 ≤ cfg.sizeof_lar_header

instance (cfg : Config) (a : Nat) : Decidable (field_inside cfg a) := by
  unfold field_inside; infer_instance

/-- Conditions on the declarations of `lar.h` under which the embedding is
read: the magic has 8 bytes, the five integer fields are distinct 4-byte
members of the header placed after the magic, the constant strings hold bytes
and no NUL, the reserved name fits its slot, the bootblock holds its 13
annotated bytes, and the sizes fit the `int` variables that hold them. -/
def Config.WF (cfg : Config) : Prop :=
  cfg.MAGIC.length = 8 ∧
  (∀ b ∈ cfg.MAGIC, 0 < b ∧ b < 256) ∧
  (∀ b ∈ cfg.BOOTBLOCK_NAME, 0 < b ∧ b < 256) ∧
  cfg.BOOTBLOCK_NAME.length < cfg.BOOTBLOCK_NAME_LEN ∧
  13 ≤ cfg.BOOTBLOCK_SIZE ∧
  0 < cfg.MAX_PATHLEN ∧
  cfg.sizeof_lar_header + cfg.MAX_PATHLEN + 15 < 2147483648 ∧
  cfg.BOOTBLOCK_SIZE + cfg.sizeof_lar_header + cfg.BOOTBLOCK_NAME_LEN < 2147483648 ∧
  field_inside cfg cfg.off_checksum ∧
  field_inside cfg cfg.off_reallen ∧
  field_inside cfg cfg.off_len ∧
  field_inside cfg cfg.off_offset ∧
  field_inside cfg cfg.off_compression ∧
  fields_apart cfg.off_checksum cfg.off_reallen ∧
  fields_apart cfg.off_checksum cfg.off_len ∧
  fields_apart cfg.off_checksum cfg.off_offset ∧
  fields_apart cfg.off_checksum cfg.off_compression ∧
  fields_apart cfg.off_reallen cfg.off_len ∧
  fields_apart cfg.off_reallen cfg.off_offset ∧
  fields_apart cfg.off_reallen cfg.off_compression ∧
  fields_apart cfg.off_len cfg.off_offset ∧
  fields_apart cfg.off_len cfg.off_compression ∧
  fields_apart cfg.off_offset cfg.off_compression

instance (cfg : Config) : Decidable cfg.WF := by
  unfold Config.WF; infer_instance

/-- Modelled from the spec: the declarations of `lar.h`, which is not among the
sources.  The layout is the one of the spec's file format (8-byte magic, then
checksum, original length, stored length, payload offset, compression id, each
a 4-byte integer); the magic is `LARCHIVE`, the reserved name is `bootblock`
in a 16-byte slot, the bootblock payload has 20480 bytes, names are cut at
1024 bytes, and the host is little-endian. -/
def lar_h : Config where
  MAGIC := [76, 65, 82, 67, 72, 73, 86, 69]
  BOOTBLOCK_SIZE := 20480
  BOOTBLOCK_NAME := [98, 111, 111, 116, 98, 108, 111, 99, 107]
  BOOTBLOCK_NAME_LEN := 16
  MAX_PATHLEN := 1024
  sizeof_lar_header := 28
  off_checksum := 8
  off_reallen := 12
  off_len := 16
  off_offset := 20
  off_compression := 24
  host_big_endian := false

/-- The handle `struct lar`: the mapping and its `u32` size (the descriptor
plays no part in the byte-level behaviour). -/
structure Archive where
  map : Mem
  size : Nat

/-! ## Memory primitives -/

/-- Effect of `memset(p + a, v, n)`. -/
def memset (m : Mem) (a v n : Nat) : Mem :=
  fun i => if a ≤ i ∧ i < a + n then v else m i

/-- Effect of `memcpy(p + a, src, n)`; bytes read past the end of `src` are
taken as zero (the scratch buffer is `calloc`ed). -/
def memcpy (m : Mem) (a : Nat) (src : Bytes) (n : Nat) : Mem :=
  fun i => if a ≤ i ∧ i < a + n then src.getD (i - a) 0 else m i

/-- Effect of `strncpy(p + a, s, n)`: the first `n` bytes of `s`, padded with
NUL bytes up to `n`. -/
def strncpy (m : Mem) (a : Nat) (s : Bytes) (n : Nat) : Mem :=
  fun i => if a ≤ i ∧ i < a + n then s.getD (i - a) 0 else m i

/-- Effect of `strcpy(p + a, s)`: the bytes of `s` and the terminating NUL. -/
def strcpy (m : Mem) (a : Nat) (s : Bytes) : Mem :=
  fun i => if a ≤ i ∧ i < a + (s.length + 1) then s.getD (i - a) 0 else m i

/-- Value of `ntohl(*(u32 *)(p + a))`: the 4 bytes at `a` read most significant first. -/
def ntohl_at (m : Mem) (a : Nat) : Nat :=
  m a * 16777216 + m (a + 1) * 65536 + m (a + 2) * 256 + m (a + 3)

/-- Effect of `*(u32 *)(p + a) = htonl(v)`. -/
def store_htonl (m : Mem) (a v : Nat) : Mem :=
  fun i =>
    if i = a then v / 16777216 % 256
    else if i = a + 1 then v / 65536 % 256
    else if i = a + 2 then v / 256 % 256
    else if i = a + 3 then v % 256
    else m i

/-- Value of `*(u32 *)(p + a)` in host byte order. -/
def host_load32 (cfg : Config) (m : Mem) (a : Nat) : Nat :=
  if cfg.host_big_endian then ntohl_at m a
  else m a + m (a + 1) * 256 + m (a + 2) * 65536 + m (a + 3) * 16777216

/-- Effect of `*(u32 *)(p + a) = v` in host byte order. -/
def host_store32 (cfg : Config) (m : Mem) (a v : Nat) : Mem :=
  if cfg.host_big_endian then store_htonl m a v
  else fun i =>
    if i = a then v % 256
    else if i = a + 1 then v / 256 % 256
    else if i = a + 2 then v / 65536 % 256
    else if i = a + 3 then v / 16777216 % 256
    else m i

/-- The `n` bytes of the mapping that start at `a`. -/
def read_bytes (m : Mem) (a n : Nat) : Bytes :=
  (List.range n).map (fun i => m (a + i))

/-- Result of `memcmp(p + a, s, n) == 0`: the `n` bytes at `a` equal the
first `n` bytes of the constant `s` (a string literal, followed by NUL). -/
def memcmp_eq (m : Mem) (a : Nat) (s : Bytes) (n : Nat) : Bool :=
  (List.range n).all (fun i => m (a + i) == s.getD i 0)

/-- Result of `strncmp(p + a, s + k, n) == 0`: bytes are compared up to the
first difference, a NUL met in both, or `n` bytes. -/
def strncmp_eq_from (m : Mem) (a : Nat) (s : Bytes) : Nat → Nat → Bool
  | 0, _ => true
  | n + 1, k =>
    if m (a + k) ≠ s.getD k 0 then false
    else if m (a + k) = 0 then true
    else strncmp_eq_from m a s n (k + 1)

/-- Result of `strncmp(p + a, s, n) == 0`. -/
def strncmp_eq (m : Mem) (a : Nat) (s : Bytes) (n : Nat) : Bool :=
  strncmp_eq_from m a s n 0

/-- The C string at `a`: the bytes before the first NUL, searched in the next
`fuel` bytes; `none` when no NUL is met there. -/
def cstring (m : Mem) : Nat → Nat → Option Bytes
  | 0, _ => none
  | fuel + 1, a =>
    if m a = 0 then some []
    else (cstring m fuel (a + 1)).map (fun s => m a :: s)

/-! ## Offsets -/

/-- Model of `get_bootblock_offset`: the subtraction is done in `size_t` and the
result is returned as `u32`. -/
def get_bootblock_offset (cfg : Config) (size : Nat) : Nat :=
  u32 ((size : Int) - ((cfg.BOOTBLOCK_SIZE + cfg.sizeof_lar_header + cfg.BOOTBLOCK_NAME_LEN : Nat) : Int))

/-- Model of `get_next_offset` for the header at `hdr`:
`((ntohl(len) + ntohl(offset) - 1) & 0xFFFFFFF0) + 16` in `u32` arithmetic. -/
def get_next_offset (cfg : Config) (m : Mem) (hdr : Nat) : Nat :=
  ((u32 ((ntohl_at m (hdr + cfg.off_len) : Int) + (ntohl_at m (hdr + cfg.off_offset) : Int) - 1)
      &&& 0xFFFFFFF0) + 16) % 4294967296

/-- Model of `lar_read_size`: the host-order `u32` at `size - 12` (a `u32`
subtraction), returned as `int`. -/
def lar_read_size (cfg : Config) (lar : Archive) : Nat :=
  host_load32 cfg lar.map (u32 ((lar.size : Int) - 12)) % 4294967296

/-- Model of `annotate_bootblock(ptr, size)` with `ptr = map + p`. -/
def annotate_bootblock (cfg : Config) (m : Mem) (p size : Nat) : Mem :=
  let m1 := memset m (p + (cfg.BOOTBLOCK_SIZE - 13)) 0 13
  host_store32 cfg m1 (p + cfg.BOOTBLOCK_SIZE - 12) size

/-! ## The world outside the archive -/

/-- Outcomes of the system calls and of the allocator, the process-wide
`algo`, and the compression registry of `lib.h`.  A registry routine maps the
input bytes to the bytes it produces; the length it reports is the length of
that output. -/
structure World where
  /-- The global `algo`. -/
  algo : Nat
  compress_functions : Nat → Bytes → Bytes
  uncompress_functions : Nat → Bytes → Bytes
  /-- Result of `open(name, O_RDONLY)`: the content of the file, or failure. -/
  open_file : Bytes → Option Bytes
  fstat_ok : Bool
  /-- Whether `calloc`/`malloc` return a buffer. -/
  alloc_ok : Bool
  mmap_ok : Bool
  /-- Address of the scratch buffer `temp`, relative to `lar->map`. -/
  temp : Int
  /-- Whether `_write_file` succeeds for the given output name. -/
  write_ok : Bytes → Bool
  /-- Number of bytes `read` delivers when asked for the given count. -/
  read_count : Nat → Nat
  /-- Whether `access(archive, F_OK)` finds the file. -/
  archive_exists : Bool
  /-- Whether `open(O_CREAT)`, `lseek` and the one-byte `write` of create succeed. -/
  create_ok : Bool

/-! ## Bootblock and lifecycle -/

/-- Model of `lar_add_bootblock`; `bootblock` is `none` for a NULL file name.
Returns the status and the archive as it is left. -/
def lar_add_bootblock (cfg : Config) (w : World) (lar : Archive) (bootblock : Option Bytes) :
    Int × Archive :=
  let offset := get_bootblock_offset cfg lar.size
  let m1 := memcpy lar.map offset cfg.MAGIC 8
  let m2 := store_htonl m1 (offset + cfg.off_reallen) cfg.BOOTBLOCK_SIZE
  let m3 := store_htonl m2 (offset + cfg.off_len) cfg.BOOTBLOCK_SIZE
  let m4 := store_htonl m3 (offset + cfg.off_offset) (cfg.sizeof_lar_header + cfg.BOOTBLOCK_NAME_LEN)
  let offset1 := offset + cfg.sizeof_lar_header
  let m5 := strcpy m4 offset1 cfg.BOOTBLOCK_NAME
  let offset2 := offset1 + cfg.BOOTBLOCK_NAME_LEN
  match bootblock with
  | none => (0, { lar with map := annotate_bootblock cfg m5 offset2 lar.size })
  | some file =>
    match w.open_file file with
    | none => (-1, { lar with map := m5 })
    | some content =>
      if !w.fstat_ok then (-1, { lar with map := m5 })
      else if content.length ≠ cfg.BOOTBLOCK_SIZE then (-1, { lar with map := m5 })
      else
        let ret := min (w.read_count cfg.BOOTBLOCK_SIZE) cfg.BOOTBLOCK_SIZE
        let m6 := memcpy m5 offset2 content ret
        if ret ≠ cfg.BOOTBLOCK_SIZE then (-1, { lar with map := m6 })
        else (0, { lar with map := annotate_bootblock cfg m6 offset2 lar.size })

/-- Model of `lar_new_archive(archive, size)`; `fresh` is the memory the new
mapping shows before it is filled. -/
def lar_new_archive (cfg : Config) (w : World) (fresh : Mem) (size : Nat) : Option Archive :=
  if w.archive_exists then none
  else if !w.alloc_ok then none
  else if !w.create_ok then none
  else if !w.mmap_ok then none
  else
    let lar : Archive := { map := fresh, size := size }
    let lar1 : Archive := { lar with map := memset lar.map 0 255 lar.size }
    let r := lar_add_bootblock cfg w lar1 none
    if r.1 ≠ 0 then none else some r.2

/-- Model of `lar_open_archive` on a file of `st_size` bytes whose mapping shows
`file`; `_map_lar` takes the size as `u32`. -/
def lar_open_archive (cfg : Config) (w : World) (st_size : Nat) (file : Mem) : Option Archive :=
  if !w.alloc_ok then none
  else if !w.fstat_ok then none
  else if !w.mmap_ok then none
  else
    let lar : Archive := { map := file, size := st_size % 4294967296 }
    let romlen := lar_read_size cfg lar
    if romlen ≠ st_size then none else some lar

/-! ## Free-space locator -/

/-- The `while` loop of `lar_empty_offset`, from the current `offset`; `none`
when the loop is still running after `fuel` iterations. -/
def lar_empty_offset_loop (cfg : Config) (lar : Archive) : Nat → Nat → Option Nat
  | 0, _ => none
  | fuel + 1, offset =>
    if offset < get_bootblock_offset cfg lar.size then
      if !memcmp_eq lar.map offset cfg.MAGIC 8 then some offset
      else lar_empty_offset_loop cfg lar fuel
        ((offset + get_next_offset cfg lar.map offset) % 4294967296)
    else some offset

/-- Model of `lar_empty_offset`: the `int` it returns, `-1` being `neg1`. -/
def lar_empty_offset (cfg : Config) (lar : Archive) (fuel : Nat) : Option Nat :=
  (lar_empty_offset_loop cfg lar fuel 0).map
    (fun offset => if offset ≥ get_bootblock_offset cfg lar.size then neg1 else offset)

/-! ## Name filter -/

/-- The `for` loop of `file_in_list` over the linked list. -/
def file_in_list_loop : List Bytes → Bytes → Bool
  | [], _ => false
  | p :: rest, filename => if p = filename then true else file_in_list_loop rest filename

/-- Model of `file_in_list`; `none` is the NULL list. -/
def file_in_list (files : Option (List Bytes)) (filename : Bytes) : Bool :=
  match files with
  | none => true
  | some l => file_in_list_loop l filename

/-! ## List and extract -/

/-- One line printed by `lar_list_files`. -/
structure Listing where
  name : Bytes
  /-- The compression id of the entry (`0` prints the short form). -/
  compression : Nat
  /-- The original length (`reallen`), printed for compressed entries. -/
  reallen : Nat
  /-- The stored length (`len`). -/
  len : Nat
  /-- The printed payload address. -/
  addr : Nat
deriving DecidableEq

/-- The `while` loop of `lar_list_files` with `ptr = map + p`: the lines printed
in the first `fuel` iterations, and whether the loop was left by then.  The
name at `ptr + sizeof(struct lar_header)` is taken as a C string, read with
`cstring` in a window of `n` bytes; a name with no NUL in the window leaves the
scan running. -/
def lar_list_loop (cfg : Config) (lar : Archive) (files : Option (List Bytes)) (n : Nat) :
    Nat → Nat → List Listing × Bool
  | 0, _ => ([], false)
  | fuel + 1, p =>
    if p < get_bootblock_offset cfg lar.size then
      if !strncmp_eq lar.map p cfg.MAGIC 8 then ([], true)
      else
        match cstring lar.map n (p + cfg.sizeof_lar_header) with
        | none => ([], false)
        | some filename =>
          let line : Listing :=
            { name := filename
              compression := ntohl_at lar.map (p + cfg.off_compression)
              reallen := ntohl_at lar.map (p + cfg.off_reallen)
              len := ntohl_at lar.map (p + cfg.off_len)
              addr := p + ntohl_at lar.map (p + cfg.off_offset) }
          let rest := lar_list_loop cfg lar files n fuel (p + get_next_offset cfg lar.map p)
          if file_in_list files filename then (line :: rest.1, rest.2) else rest
    else ([], true)

/-- Model of `lar_list_files`: the printed lines, the bootblock line last, or
the lines printed so far when the scan is still running after `fuel` steps
(second component `false`).  The bootblock line prints the name, `len` and the
address only; its `compression` is 0 and its `reallen` repeats `len`. -/
def lar_list_files (cfg : Config) (lar : Archive) (files : Option (List Bytes)) (fuel : Nat) :
    List Listing × Bool :=
  let r := lar_list_loop cfg lar files fuel fuel 0
  if !r.2 then r
  else if file_in_list files cfg.BOOTBLOCK_NAME then
    let b := get_bootblock_offset cfg lar.size
    (r.1 ++ [{ name := cfg.BOOTBLOCK_NAME
               compression := 0
               reallen := ntohl_at lar.map (b + cfg.off_len)
               len := ntohl_at lar.map (b + cfg.off_len)
               addr := (b + ntohl_at lar.map (b + cfg.off_offset)) % 4294967296 }], true)
  else r

/-- Progress of the loop of `lar_extract_files`. -/
inductive Scan where
  /-- Still running when the fuel ran out. -/
  | running
  /-- Left by `return -1` inside the loop. -/
  | failed
  /-- Loop left; the value of `ret` at that point. -/
  | left (ret : Int)
deriving DecidableEq

/-- Model of `_write_file`: the file written (name and bytes, none on failure)
and the status. -/
def _write_file (w : World) (filename : Bytes) (buffer : Bytes) : List (Bytes × Bytes) × Int :=
  if w.write_ok filename then ([(filename, buffer)], 0) else ([], -1)

/-- The `while` loop of `lar_extract_files` with `ptr = map + p` and the current
`ret`: the files written in the first `fuel` iterations and how the loop stands
after them.  Names are read as in `lar_list_loop`.  A buffer from `malloc`
holds the routine's output, zero where the routine wrote nothing. -/
def lar_extract_loop (cfg : Config) (w : World) (lar : Archive) (files : Option (List Bytes))
    (n : Nat) : Nat → Nat → Int → List (Bytes × Bytes) × Scan
  | 0, _, _ => ([], Scan.running)
  | fuel + 1, p, ret =>
    if p < get_bootblock_offset cfg lar.size then
      if !strncmp_eq lar.map p cfg.MAGIC 8 then ([], Scan.left ret)
      else
        match cstring lar.map n (p + cfg.sizeof_lar_header) with
        | none => ([], Scan.running)
        | some filename =>
          let next := p + get_next_offset cfg lar.map p
          if file_in_list files filename then
            let src := p + ntohl_at lar.map (p + cfg.off_offset)
            let len := ntohl_at lar.map (p + cfg.off_len)
            if ntohl_at lar.map (p + cfg.off_compression) = 0 then
              let wr := _write_file w filename (read_bytes lar.map src len)
              if wr.2 = -1 then (wr.1, Scan.failed)
              else
                let rest := lar_extract_loop cfg w lar files n fuel next wr.2
                (wr.1 ++ rest.1, rest.2)
            else if !w.alloc_ok then ([], Scan.failed)
            else
              let reallen := ntohl_at lar.map (p + cfg.off_reallen)
              let out := w.uncompress_functions (ntohl_at lar.map (p + cfg.off_compression))
                (read_bytes lar.map src len)
              let buf := (List.range reallen).map (fun i => out.getD i 0)
              let wr := _write_file w filename buf
              if wr.2 = -1 then (wr.1, Scan.failed)
              else
                let rest := lar_extract_loop cfg w lar files n fuel next wr.2
                (wr.1 ++ rest.1, rest.2)
          else lar_extract_loop cfg w lar files n fuel next ret
    else ([], Scan.left ret)

/-- Model of `lar_extract_files`: the files written, in order, and the status
returned (`none` while the scan is still running after `fuel` steps). -/
def lar_extract_files (cfg : Config) (w : World) (lar : Archive) (files : Option (List Bytes))
    (fuel : Nat) : List (Bytes × Bytes) × Option Int :=
  let r := lar_extract_loop cfg w lar files fuel fuel 0 0
  match r.2 with
  | Scan.running => (r.1, none)
  | Scan.failed => (r.1, some (-1))
  | Scan.left ret =>
    if file_in_list files cfg.BOOTBLOCK_NAME then
      let b := get_bootblock_offset cfg lar.size
      let wr := _write_file w cfg.BOOTBLOCK_NAME
        (read_bytes lar.map ((b + ntohl_at lar.map (b + cfg.off_offset)) % 4294967296)
          cfg.BOOTBLOCK_SIZE)
      (r.1 ++ wr.1, some wr.2)
    else (r.1, some ret)

/-! ## Add -/

/-- Bytes of the literal `nocompress:`. -/
def nocompress_tag : Bytes := [110, 111, 99, 111, 109, 112, 114, 101, 115, 115, 58]

/-- The argument of `lar_add_file` after lines 560-584: the algorithm, the
source path `filename` and the stored name `pathname`; `none` for the
`Invalid pathname` return. -/
def split_name (w : World) (name : Bytes) : Option (Nat × Bytes × Bytes) :=
  let tagged := nocompress_tag.isPrefixOf name
  let filename0 := if tagged then name.drop 11 else name
  let thisalgo := if tagged then 0 else w.algo
  let filename1 :=
    match filename0 with
    | 46 :: 47 :: rest => rest
    | other => other
  match filename1.span (fun c => c != 58) with
  | (_, []) => some (thisalgo, filename1, filename1)
  | (source, _ :: pathname) =>
    if pathname.length = 0 then none else some (thisalgo, source, pathname)

/-- Value of `pathlen` (line 633). -/
def pathlen_of (cfg : Config) (pathname : Bytes) : Nat :=
  if pathname.length + 1 > cfg.MAX_PATHLEN then cfg.MAX_PATHLEN else pathname.length + 1

/-- Value of `hlen` (lines 636-637): `sizeof(struct lar_header) + pathlen`
stored in an `int`, then `(hlen + 15) & 0xFFFFFFF0`. -/
def hlen_of (cfg : Config) (pathname : Bytes) : Nat :=
  (((cfg.sizeof_lar_header + pathlen_of cfg pathname) % 4294967296 + 15) % 4294967296)
    &&& 0xFFFFFFF0

/-- The checksum loop (lines 668-672): `walk` runs from its start in steps of
one `u32` while it is below `stop`, the address `temp + complen + hlen`. -/
def csum_loop (m : Mem) (stop : Int) : Nat → Nat → Nat → Nat
  | 0, _, csum => csum
  | fuel + 1, walk, csum =>
    if (walk : Int) < stop then
      csum_loop m stop fuel (walk + 4) ((csum + ntohl_at m walk) % 4294967296)
    else csum

/-- The compression step and its fallback (lines 623-628): the final algorithm,
the content of `temp` and `complen`. -/
def compress_step (w : World) (thisalgo : Nat) (content : Bytes) : Nat × Bytes × Nat :=
  let input := content.take (content.length % 4294967296)
  let out := w.compress_functions thisalgo input
  let complen := out.length % 4294967296
  if complen ≥ content.length ∧ thisalgo ≠ 0 then
    let out0 := w.compress_functions 0 input
    (0, out0, out0.length % 4294967296)
  else (thisalgo, out, complen)

/-- Lines 648-673 of `lar_add_file`: the record written at `offset`. -/
def write_record (cfg : Config) (w : World) (m : Mem) (offset thisalgo st_size : Nat)
    (temp : Bytes) (complen : Nat) (pathname : Bytes) : Mem :=
  let hlen := hlen_of cfg pathname
  let m1 := memset m offset 0 hlen
  let m2 := memcpy m1 offset cfg.MAGIC 8
  let m3 := store_htonl m2 (offset + cfg.off_compression) thisalgo
  let m4 := store_htonl m3 (offset + cfg.off_reallen) st_size
  let m5 := store_htonl m4 (offset + cfg.off_len) complen
  let m6 := store_htonl m5 (offset + cfg.off_offset) hlen
  let m7 := strncpy m6 (offset + cfg.sizeof_lar_header) pathname (pathlen_of cfg pathname - 1)
  let m8 := memcpy m7 ((offset + hlen) % 4294967296) temp complen
  let stop : Int := w.temp + (complen : Int) + (hlen : Int)
  let csum := csum_loop m8 stop (stop - (offset : Int)).toNat offset 0
  store_htonl m8 (offset + cfg.off_checksum) csum

/-- Model of `lar_add_file` after line 558, `offset` being the `u32` that
received the result of `lar_empty_offset`.  Returns the status and the archive. -/
def lar_add_file_at (cfg : Config) (w : World) (lar : Archive) (offset : Nat) (name : Bytes) :
    Int × Archive :=
  match split_name w name with
  | none => (-1, lar)
  | some (thisalgo0, filename, pathname) =>
    match w.open_file filename with
    | none => (-1, lar)
    | some content =>
      if !w.fstat_ok then (-1, lar)
      else if !w.alloc_ok then (-1, lar)
      else if !w.mmap_ok then (-1, lar)
      else
        match compress_step w thisalgo0 content with
        | (thisalgo, temp, complen) =>
          let hlen := hlen_of cfg pathname
          if (offset + hlen + complen) % 4294967296 ≥ get_bootblock_offset cfg lar.size then
            (-1, lar)
          else
            let m := write_record cfg w lar.map offset thisalgo content.length temp complen pathname
            (0, { lar with map := m })

/-- Model of `lar_add_file`: `none` when `lar_empty_offset` is still scanning
after `fuel` steps. -/
def lar_add_file (cfg : Config) (w : World) (lar : Archive) (name : Bytes) (fuel : Nat) :
    Option (Int × Archive) :=
  (lar_empty_offset cfg lar fuel).map (fun offset => lar_add_file_at cfg w lar offset name)


/-! ## Definitions that follow the spec's words -/

/-- The spec's round-up-to-16, `((x − 1) & ~15) + 16`, the complement taken in
32 bits. -/
def round_up_16 (x : Nat) : Nat := ((x - 1) &&& (4294967295 ^^^ 15)) + 16

/-- Sum of the payload offset and the stored length of the header at `hdr`, as
natural numbers. -/
def record_extent (cfg : Config) (m : Mem) (hdr : Nat) : Nat :=
  ntohl_at m (hdr + cfg.off_offset) + ntohl_at m (hdr + cfg.off_len)

/-- The chain of offsets of the spec's walk: `o_0 = 0` and
`o_{k+1} = o_k + get_next_offset(header at o_k)`, the sum in `u32`. -/
def chain (cfg : Config) (lar : Archive) : Nat → Nat
  | 0 => 0
  | k + 1 => (chain cfg lar k + get_next_offset cfg lar.map (chain cfg lar k)) % 4294967296

/-- The 32-bit sum of the `n` big-endian words that start at `a`. -/
def be_word_sum (m : Mem) (a : Nat) : Nat → Nat
  | 0 => 0
  | n + 1 => (be_word_sum m a n + ntohl_at m (a + 4 * n)) % 4294967296

/-- The header at chain index `j` is a committed entry: it lies below the
bootblock offset and carries the magic. -/
def committed (cfg : Config) (lar : Archive) (j : Nat) : Prop :=
  chain cfg lar j < get_bootblock_offset cfg lar.size ∧
    memcmp_eq lar.map (chain cfg lar j) cfg.MAGIC 8 = true

/-- The committed entry at chain index `j` is sound: its record ends at or
before the bootblock offset, and its name is terminated by a NUL inside the
record, after the fixed header. -/
def entry_sound (cfg : Config) (lar : Archive) (j : Nat) : Prop :=
  committed cfg lar j ∧
  chain cfg lar j + get_next_offset cfg lar.map (chain cfg lar j)
    ≤ get_bootblock_offset cfg lar.size ∧
  ∃ n, cfg.sizeof_lar_header + n < get_next_offset cfg lar.map (chain cfg lar j) ∧
    lar.map (chain cfg lar j + cfg.sizeof_lar_header + n) = 0

/-- The bytes `lar_extract_files` hands to `_write_file` for the entry whose
header is at `p`. -/
def entry_data (cfg : Config) (w : World) (m : Mem) (p : Nat) : Bytes :=
  let src := p + ntohl_at m (p + cfg.off_offset)
  let len := ntohl_at m (p + cfg.off_len)
  if ntohl_at m (p + cfg.off_compression) = 0 then read_bytes m src len
  else
    (List.range (ntohl_at m (p + cfg.off_reallen))).map
      (fun i => (w.uncompress_functions (ntohl_at m (p + cfg.off_compression))
        (read_bytes m src len)).getD i 0)

instance (cfg : Config) (lar : Archive) (j : Nat) : Decidable (committed cfg lar j) := by
  unfold committed; infer_instance

/-! ## Concrete worlds and archives used for evaluation -/

/-- A world in which every call succeeds, the global algorithm is `0`, every
registry routine copies its input, `open` resolves names through `fs`, and
the scratch buffer sits at `temp`. -/
def plain_world (fs : Bytes → Option Bytes) (temp : Int) : World where
  algo := 0
  compress_functions := fun _ b => b
  uncompress_functions := fun _ b => b
  open_file := fs
  fstat_ok := true
  alloc_ok := true
  mmap_ok := true
  temp := temp
  write_ok := fun _ => true
  read_count := fun n => n
  archive_exists := false
  create_ok := true

/-- The archive `lar_new_archive` makes for `size` out of zero-filled memory:
the `0xFF` fill and the empty bootblock. -/
def created (size : Nat) : Archive :=
  (lar_add_bootblock lar_h (plain_world (fun _ => none) 0)
    { map := memset (fun _ => 0) 0 255 size, size := size } none).2

/-- Source files `a` (the 4 bytes 1, 2, 3, 4) and nothing else. -/
def one_file (name : Bytes) : Option Bytes :=
  if name = [97] then some [1, 2, 3, 4] else none

/-- Source files `a` (31 bytes) and `b` (one byte). -/
def two_files (name : Bytes) : Option Bytes :=
  if name = [97] then some (List.replicate 31 7)
  else if name = [98] then some [66]
  else none

/-- Source file `a` of `2^32 - 32` zero bytes. -/
def huge_file (name : Bytes) : Option Bytes :=
  if name = [97] then some (List.replicate 4294967264 0) else none

/-- The archive of 20588 bytes (64 bytes before the bootblock header) after
the 31-byte file `a` was added: the record takes 63 bytes, so the next header
offset is the bootblock offset. -/
def full_archive : Archive :=
  (lar_add_file_at lar_h (plain_world two_files (-4096)) (created 20588) 0 [97]).2

/-- The archive of 30000 bytes after the 31-byte file `a` was added. -/
def one_entry : Archive :=
  (lar_add_file_at lar_h (plain_world two_files (-4096)) (created 30000) 0 [97]).2

/-- A world with a toy registry: routine 1 drops the first byte and its
decompress routine puts a 7 in front; the global algorithm is 1 and the file
`c` holds the bytes 7, 8, 9. -/
def toy_world : World where
  algo := 1
  compress_functions := fun a b => if a = 0 then b else b.drop 1
  uncompress_functions := fun a b => if a = 0 then b else 7 :: b
  open_file := fun name => if name = [99] then some [7, 8, 9] else none
  fstat_ok := true
  alloc_ok := true
  mmap_ok := true
  temp := -4096
  write_ok := fun _ => true
  read_count := fun n => n
  archive_exists := false
  create_ok := true

/-! ## Definitions for the walks, the bootblock writer and the add argument -/

/-- The header bytes `lar_add_bootblock` writes before it looks at the file. -/
def bootblock_header (cfg : Config) (m : Mem) (offset : Nat) : Mem :=
  strcpy
    (store_htonl
      (store_htonl
        (store_htonl (memcpy m offset cfg.MAGIC 8) (offset + cfg.off_reallen) cfg.BOOTBLOCK_SIZE)
        (offset + cfg.off_len) cfg.BOOTBLOCK_SIZE)
      (offset + cfg.off_offset) (cfg.sizeof_lar_header + cfg.BOOTBLOCK_NAME_LEN))
    (offset + cfg.sizeof_lar_header) cfg.BOOTBLOCK_NAME

/-- The bytes `lar_add_bootblock` may write in an archive of size `S`: the magic,
the `reallen`, `len` and `offset` fields, the reserved name with its NUL, the
payload before its last 13 bytes when a file is given, and the last 13 bytes. -/
def bootblock_written (cfg : Config) (S : Nat) (with_file : Bool) (i : Nat) : Prop :=
  (get_bootblock_offset cfg S ≤ i ∧ i < get_bootblock_offset cfg S + 8) ∨
  (get_bootblock_offset cfg S + cfg.off_reallen ≤ i ∧
    i < get_bootblock_offset cfg S + cfg.off_reallen + 4) ∨
  (get_bootblock_offset cfg S + cfg.off_len ≤ i ∧
    i < get_bootblock_offset cfg S + cfg.off_len + 4) ∨
  (get_bootblock_offset cfg S + cfg.off_offset ≤ i ∧
    i < get_bootblock_offset cfg S + cfg.off_offset + 4) ∨
  (get_bootblock_offset cfg S + cfg.sizeof_lar_header ≤ i ∧
    i < get_bootblock_offset cfg S + cfg.sizeof_lar_header + (cfg.BOOTBLOCK_NAME.length + 1)) ∨
  (with_file = true ∧ S - cfg.BOOTBLOCK_SIZE ≤ i ∧ i < S - 13) ∨
  (S - 13 ≤ i ∧ i < S)

/-- An archive file of 30000 bytes with a valid bootblock whose first header
carries the magic and has zero `len` and `offset` fields (bytes 8 to 31 are
zero, so the name is empty). -/
def stuck_archive : Archive :=
  { map := memcpy (memset (created 30000).map 0 0 32) 0 lar_h.MAGIC 8, size := 30000 }

/-- Source files `a` (one byte), `b` (40 bytes) and `c` (30 bytes of value 7). -/
def three_files (name : Bytes) : Option Bytes :=
  if name = [97] then some [1]
  else if name = [98] then some (List.replicate 40 2)
  else if name = [99] then some (List.replicate 30 7)
  else none

/-- The archive of 20652 bytes (128 bytes before the bootblock header) after
`a` and `b` were added: records at 0 and 48, the next header offset is 128. -/
def two_entries_full : Archive :=
  (lar_add_file_at lar_h (plain_world three_files (-4096))
    (lar_add_file_at lar_h (plain_world three_files (-4096)) (created 20652) 0 [97]).2 48 [98]).2

/-- The archive `two_entries_full` after `c` was added as well. -/
def overwritten : Archive :=
  (lar_add_file_at lar_h (plain_world three_files (-4096)) two_entries_full neg1 [99]).2

/-- The archive of 30000 bytes after the 4-byte file `a` was added twice. -/
def twice_added : Archive :=
  (lar_add_file_at lar_h (plain_world one_file (-4096))
    (lar_add_file_at lar_h (plain_world one_file (-4096)) (created 30000) 0 [97]).2 48 [97]).2

/-- The offsets at which the loop of `lar_empty_offset` finds the magic and
steps on, in its first `fuel` iterations from `offset`. -/
def lar_empty_offset_steps (cfg : Config) (lar : Archive) : Nat → Nat → List Nat
  | 0, _ => []
  | fuel + 1, offset =>
    if offset < get_bootblock_offset cfg lar.size then
      if !memcmp_eq lar.map offset cfg.MAGIC 8 then []
      else offset :: lar_empty_offset_steps cfg lar fuel
        ((offset + get_next_offset cfg lar.map offset) % 4294967296)
    else []

/-- The offsets `ptr - lar->map` at which the loop shared by `lar_list_files`
and `lar_extract_files` finds a valid entry and steps on, in its first `fuel`
iterations from `p`, when no `return` cuts the loop short. -/
def scan_steps (cfg : Config) (lar : Archive) : Nat → Nat → List Nat
  | 0, _ => []
  | fuel + 1, p =>
    if p < get_bootblock_offset cfg lar.size then
      if !strncmp_eq lar.map p cfg.MAGIC 8 then []
      else p :: scan_steps cfg lar fuel (p + get_next_offset cfg lar.map p)
    else []

/-- The line `lar_list_files` prints for the entry whose header is at `p`. -/
def entry_line (cfg : Config) (lar : Archive) (n p : Nat) : Listing :=
  { name := (cstring lar.map n (p + cfg.sizeof_lar_header)).getD []
    compression := ntohl_at lar.map (p + cfg.off_compression)
    reallen := ntohl_at lar.map (p + cfg.off_reallen)
    len := ntohl_at lar.map (p + cfg.off_len)
    addr := p + ntohl_at lar.map (p + cfg.off_offset) }

/-- An archive file of 30000 bytes with a valid bootblock and three magics: a
header at 0 with `offset = 32` and `len = 32` (next header at 64), a header at
64 with `offset = 32` and `len = 2^32 - 64` (next-header distance `2^32 - 32`),
and the magic again at 32, inside the first payload.  The names at 28 and 92
are empty. -/
def wrapping_archive : Archive :=
  let m0 := (created 30000).map
  let m1 := store_htonl (store_htonl (memcpy m0 0 lar_h.MAGIC 8) 16 32) 20 32
  let m2 := store_htonl (store_htonl (memcpy m1 64 lar_h.MAGIC 8) 80 4294967232) 84 32
  let m3 := memset (memset (memcpy m2 32 lar_h.MAGIC 8) 28 0 1) 92 0 1
  { map := m3, size := 30000 }

/-- A world in which every call succeeds except the writes of `_write_file`. -/
def failing_writes : World :=
  { plain_world one_file (-4096) with write_ok := fun _ => false }

theorem memset_out (m : Mem) (a v n i : Nat) (h : i < a ∨ a + n ≤ i) : memset m a v n i = m i := by
  unfold memset; rw [if_neg]; omega

theorem memset_in (m : Mem) (a v n i : Nat) (h1 : a ≤ i) (h2 : i < a + n) : memset m a v n i = v := by
  unfold memset; rw [if_pos]; exact ⟨h1, h2⟩

theorem memcpy_out (m : Mem) (a : Nat) (s : Bytes) (n i : Nat) (h : i < a ∨ a + n ≤ i) :
    memcpy m a s n i = m i := by
  unfold memcpy; rw [if_neg]; omega

theorem memcpy_in (m : Mem) (a : Nat) (s : Bytes) (n i : Nat) (h1 : a ≤ i) (h2 : i < a + n) :
    memcpy m a s n i = s.getD (i - a) 0 := by
  unfold memcpy; rw [if_pos]; exact ⟨h1, h2⟩

theorem strncpy_out (m : Mem) (a : Nat) (s : Bytes) (n i : Nat) (h : i < a ∨ a + n ≤ i) :
    strncpy m a s n i = m i := by
  unfold strncpy; rw [if_neg]; omega

theorem strncpy_in (m : Mem) (a : Nat) (s : Bytes) (n i : Nat) (h1 : a ≤ i) (h2 : i < a + n) :
    strncpy m a s n i = s.getD (i - a) 0 := by
  unfold strncpy; rw [if_pos]; exact ⟨h1, h2⟩

theorem store_htonl_out (m : Mem) (a v i : Nat) (h : i < a ∨ a + 4 ≤ i) :
    store_htonl m a v i = m i := by
  unfold store_htonl
  rw [if_neg (by omega), if_neg (by omega), if_neg (by omega), if_neg (by omega)]

theorem ntohl_at_congr (m m' : Mem) (a : Nat) (h : ∀ i, a ≤ i → i < a + 4 → m' i = m i) :
    ntohl_at m' a = ntohl_at m a := by
  unfold ntohl_at
  rw [h a (by omega) (by omega), h (a + 1) (by omega) (by omega), h (a + 2) (by omega) (by omega),
    h (a + 3) (by omega) (by omega)]

theorem ntohl_at_store_htonl (m : Mem) (a v : Nat) (hv : v < 4294967296) :
    ntohl_at (store_htonl m a v) a = v := by
  unfold ntohl_at store_htonl
  simp
  omega

theorem read_bytes_congr (m m' : Mem) (a n : Nat) (h : ∀ i, a ≤ i → i < a + n → m' i = m i) :
    read_bytes m' a n = read_bytes m a n := by
  unfold read_bytes
  apply List.map_congr_left
  intro i hi
  rw [List.mem_range] at hi
  exact h (a + i) (by omega) (by omega)

theorem read_bytes_memcpy (m : Mem) (a : Nat) (s : Bytes) : read_bytes (memcpy m a s s.length) a s.length = s := by
  unfold read_bytes
  apply List.ext_getElem
  · simp
  · intro i h1 h2
    simp at h1
    simp [memcpy, h1, List.getD_eq_getElem?_getD, List.getElem?_eq_getElem h1]


theorem u32_of_lt (x : Nat) (h : x < 4294967296) : u32 (x : Int) = x := by
  unfold u32; omega

theorem u32_lt (x : Int) : u32 x < 4294967296 := by
  unfold u32; omega

theorem land_mask16 (x : Nat) (hx : x < 4294967296) : x &&& 0xFFFFFFF0 = x / 16 * 16 := by
  apply Nat.eq_of_testBit_eq
  intro i
  have h1 : (0xFFFFFFF0 : Nat) = 2 ^ 4 * (2 ^ 28 - 1) := by norm_num
  have h2 : x / 16 * 16 = 2 ^ 4 * (x / 2 ^ 4) := by norm_num [Nat.mul_comm]
  rw [Nat.testBit_and, h1, h2, Nat.testBit_mul_pow_two, Nat.testBit_mul_pow_two,
    Nat.testBit_two_pow_sub_one, ← Nat.shiftRight_eq_div_pow, Nat.testBit_shiftRight]
  by_cases h4 : 4 ≤ i
  · have e : 4 + (i - 4) = i := by omega
    by_cases h32 : i < 32
    · have : i - 4 < 28 := by omega
      simp [h4, this, e]
    · have hf : x.testBit i = false := by
        apply Nat.testBit_lt_two_pow
        calc x < 2 ^ 32 := by norm_num; exact hx
          _ ≤ 2 ^ i := Nat.pow_le_pow_right (by decide) (by omega)
      simp [h4, e, hf]
  · simp [h4]

theorem round_up_16_eq (x : Nat) (hx : x ≤ 4294967296) : round_up_16 x = (x - 1) / 16 * 16 + 16 := by
  unfold round_up_16
  have : (4294967295 ^^^ 15 : Nat) = 0xFFFFFFF0 := by decide
  rw [this, land_mask16 _ (by omega)]

theorem get_next_offset_eq (cfg : Config) (m : Mem) (hdr : Nat)
    (hpos : 0 < ntohl_at m (hdr + cfg.off_offset) + ntohl_at m (hdr + cfg.off_len))
    (hle : ntohl_at m (hdr + cfg.off_offset) + ntohl_at m (hdr + cfg.off_len) ≤ 4294967296 - 16) :
    get_next_offset cfg m hdr =
      (ntohl_at m (hdr + cfg.off_offset) + ntohl_at m (hdr + cfg.off_len) - 1) / 16 * 16 + 16 := by
  unfold get_next_offset
  have e : u32 ((ntohl_at m (hdr + cfg.off_len) : Int) + (ntohl_at m (hdr + cfg.off_offset) : Int) - 1)
      = ntohl_at m (hdr + cfg.off_offset) + ntohl_at m (hdr + cfg.off_len) - 1 := by
    unfold u32; omega
  rw [e, land_mask16 _ (by omega)]
  omega


theorem wf_sizes (cfg : Config) (hwf : cfg.WF) :
    cfg.MAGIC.length = 8 ∧ cfg.BOOTBLOCK_NAME.length < cfg.BOOTBLOCK_NAME_LEN ∧
    13 ≤ cfg.BOOTBLOCK_SIZE ∧ 0 < cfg.MAX_PATHLEN ∧
    cfg.sizeof_lar_header + cfg.MAX_PATHLEN + 15 < 2147483648 ∧
    cfg.BOOTBLOCK_SIZE + cfg.sizeof_lar_header + cfg.BOOTBLOCK_NAME_LEN < 2147483648 := by
  simp only [Config.WF, field_inside, fields_apart] at hwf
  omega

theorem pathlen_of_eq (cfg : Config) (pathname : Bytes) :
    pathlen_of cfg pathname = min (pathname.length + 1) cfg.MAX_PATHLEN := by
  unfold pathlen_of
  split <;> omega

theorem hlen_of_eq (cfg : Config) (hwf : cfg.WF) (pathname : Bytes) :
    hlen_of cfg pathname = (cfg.sizeof_lar_header + pathlen_of cfg pathname + 15) / 16 * 16 := by
  have hs := wf_sizes cfg hwf
  have hp := pathlen_of_eq cfg pathname
  unfold hlen_of
  have e : ((cfg.sizeof_lar_header + pathlen_of cfg pathname) % 4294967296 + 15) % 4294967296
      = cfg.sizeof_lar_header + pathlen_of cfg pathname + 15 := by omega
  rw [e, land_mask16 _ (by omega)]


theorem wf_fields (cfg : Config) (hwf : cfg.WF) :
    (field_inside cfg cfg.off_checksum ∧ field_inside cfg cfg.off_reallen ∧
      field_inside cfg cfg.off_len ∧ field_inside cfg cfg.off_offset ∧
      field_inside cfg cfg.off_compression) ∧
    fields_apart cfg.off_checksum cfg.off_reallen ∧
    fields_apart cfg.off_checksum cfg.off_len ∧
    fields_apart cfg.off_checksum cfg.off_offset ∧
    fields_apart cfg.off_checksum cfg.off_compression ∧
    fields_apart cfg.off_reallen cfg.off_len ∧
    fields_apart cfg.off_reallen cfg.off_offset ∧
    fields_apart cfg.off_reallen cfg.off_compression ∧
    fields_apart cfg.off_len cfg.off_offset ∧
    fields_apart cfg.off_len cfg.off_compression ∧
    fields_apart cfg.off_offset cfg.off_compression := by
  simp only [Config.WF, field_inside, fields_apart] at hwf
  simp only [field_inside, fields_apart]
  omega

theorem hlen_bounds (cfg : Config) (hwf : cfg.WF) (pathname : Bytes) :
    cfg.sizeof_lar_header + pathlen_of cfg pathname ≤ hlen_of cfg pathname ∧
    hlen_of cfg pathname < 2147483648 ∧ 16 ∣ hlen_of cfg pathname ∧
    1 ≤ pathlen_of cfg pathname ∧ pathlen_of cfg pathname ≤ cfg.MAX_PATHLEN := by
  have hs := wf_sizes cfg hwf
  have hp := pathlen_of_eq cfg pathname
  rw [hlen_of_eq cfg hwf]
  refine ⟨by omega, by omega, ⟨(cfg.sizeof_lar_header + pathlen_of cfg pathname + 15) / 16, by omega⟩,
    by omega, by omega⟩

theorem write_record_offset_field (cfg : Config) (hwf : cfg.WF) (w : World) (m : Mem)
    (o thisalgo st_size : Nat) (temp : Bytes) (complen : Nat) (pathname : Bytes)
    (ho : o + hlen_of cfg pathname < 4294967296) :
    ntohl_at (write_record cfg w m o thisalgo st_size temp complen pathname) (o + cfg.off_offset)
      = hlen_of cfg pathname := by
  have hb := hlen_bounds cfg hwf pathname
  have hf := wf_fields cfg hwf
  simp only [field_inside, fields_apart] at hf
  unfold write_record
  simp only []
  rw [Nat.mod_eq_of_lt ho]
  rw [ntohl_at_congr _ _ _ (fun i h1 h2 => store_htonl_out _ _ _ i (by omega))]
  rw [ntohl_at_congr _ _ _ (fun i h1 h2 => memcpy_out _ _ _ _ i (by omega))]
  rw [ntohl_at_congr _ _ _ (fun i h1 h2 => strncpy_out _ _ _ _ i (by omega))]
  exact ntohl_at_store_htonl _ _ _ (by omega)


theorem lar_add_file_at_fail (cfg : Config) (w : World) (lar : Archive) (o : Nat) (name : Bytes)
    (h : (lar_add_file_at cfg w lar o name).1 ≠ 0) :
    lar_add_file_at cfg w lar o name = (-1, lar) := by
  revert h
  unfold lar_add_file_at
  split
  · intro _; rfl
  · split
    · intro _; rfl
    · split
      · intro _; rfl
      · split
        · intro _; rfl
        · split
          · intro _; rfl
          · split
            simp only []
            split
            · intro _; rfl
            · intro h; exact absurd rfl h

theorem lar_add_file_at_ok (cfg : Config) (w : World) (lar : Archive) (o : Nat) (name : Bytes)
    (h : (lar_add_file_at cfg w lar o name).1 = 0) :
    ∃ algo0 filename pathname content,
      split_name w name = some (algo0, filename, pathname) ∧
      w.open_file filename = some content ∧
      w.fstat_ok = true ∧ w.alloc_ok = true ∧ w.mmap_ok = true ∧
      (o + hlen_of cfg pathname + (compress_step w algo0 content).2.2) % 4294967296
        < get_bootblock_offset cfg lar.size ∧
      (lar_add_file_at cfg w lar o name).2.size = lar.size ∧
      (lar_add_file_at cfg w lar o name).2.map =
        write_record cfg w lar.map o (compress_step w algo0 content).1
          content.length (compress_step w algo0 content).2.1 (compress_step w algo0 content).2.2
          pathname := by
  revert h
  unfold lar_add_file_at
  split
  · intro h; simp at h
  · rename_i algo0 filename pathname hs
    split
    · intro h; simp at h
    · rename_i content ho
      split
      · intro h; simp at h
      · split
        · intro h; simp at h
        · split
          · intro h; simp at h
          · rename_i h1 h2 h3
            split
            rename_i a t c hc
            simp only []
            split
            · intro h; simp at h
            · rename_i hcap
              intro _
              refine ⟨algo0, filename, pathname, content, hs, ho, ?_, ?_, ?_, ?_, ?_, ?_⟩
              · simpa using h1
              · simpa using h2
              · simpa using h3
              · rw [hc]; simpa using hcap
              · rfl
              · rw [hc]

theorem host_store32_out (cfg : Config) (m : Mem) (a v i : Nat) (h : i < a ∨ a + 4 ≤ i) :
    host_store32 cfg m a v i = m i := by
  unfold host_store32
  split
  · exact store_htonl_out m a v i h
  · simp only []
    rw [if_neg (by omega), if_neg (by omega), if_neg (by omega), if_neg (by omega)]

theorem host_load32_store32 (cfg : Config) (m : Mem) (a v : Nat) (hv : v < 4294967296) :
    host_load32 cfg (host_store32 cfg m a v) a = v := by
  unfold host_load32 host_store32
  split
  · exact ntohl_at_store_htonl m a v hv
  · simp
    omega

theorem get_bootblock_offset_eq (cfg : Config) (S : Nat) (hS : S < 4294967296)
    (hR : cfg.BOOTBLOCK_SIZE + cfg.sizeof_lar_header + cfg.BOOTBLOCK_NAME_LEN ≤ S) :
    get_bootblock_offset cfg S
      = S - (cfg.BOOTBLOCK_SIZE + cfg.sizeof_lar_header + cfg.BOOTBLOCK_NAME_LEN) := by
  unfold get_bootblock_offset u32
  omega

theorem get_bootblock_offset_lt (cfg : Config) (S : Nat) :
    get_bootblock_offset cfg S < 4294967296 := u32_lt _

/-- The size check of `lar_open_archive`, for a file of at least 12 bytes. -/
theorem lar_open_archive_size_check_aux (cfg : Config) (w : World) (L : Nat) (file : Mem)
    (hL : 12 ≤ L) :
    (host_load32 cfg file (L - 12) % 4294967296 ≠ L → lar_open_archive cfg w L file = none) ∧
    (host_load32 cfg file (L - 12) % 4294967296 = L →
      w.alloc_ok = true → w.fstat_ok = true → w.mmap_ok = true →
      lar_open_archive cfg w L file = some { map := file, size := L }) := by
  constructor
  · intro hne
    unfold lar_open_archive
    split
    · rfl
    · split
      · rfl
      · split
        · rfl
        · simp only []
          rw [if_pos]
          unfold lar_read_size
          simp only []
          by_cases hlt : L < 4294967296
          · have e : u32 (((L % 4294967296 : Nat) : Int) - 12) = L - 12 := by
              unfold u32; omega
            rw [e]
            exact hne
          · have := Nat.mod_lt (host_load32 cfg file (u32 (((L % 4294967296 : Nat) : Int) - 12)))
              (show 0 < 4294967296 by decide)
            omega
  · intro heq ha hf hm
    have hlt : L < 4294967296 := by
      have := Nat.mod_lt (host_load32 cfg file (L - 12)) (show 0 < 4294967296 by decide)
      omega
    unfold lar_open_archive
    rw [ha, hf, hm]
    simp only [Bool.not_true, Bool.false_eq_true, if_false]
    have e : u32 (((L % 4294967296 : Nat) : Int) - 12) = L - 12 := by
      unfold u32; omega
    unfold lar_read_size
    simp only []
    rw [e, heq, if_neg (by simp), Nat.mod_eq_of_lt hlt]

theorem lar_empty_offset_loop_chain (cfg : Config) (lar : Archive) (k : Nat)
    (hk : ∀ j, j < k → committed cfg lar j) (n : Nat) :
    lar_empty_offset_loop cfg lar (k + n) 0 = lar_empty_offset_loop cfg lar n (chain cfg lar k) := by
  induction k generalizing n with
  | zero => simp [chain]
  | succ k ih =>
    have hkk := hk k (by omega)
    have e : k + 1 + n = k + (n + 1) := by omega
    rw [e, ih (fun j hj => hk j (by omega))]
    unfold committed at hkk
    rw [lar_empty_offset_loop, if_pos hkk.1, hkk.2]
    simp [chain]

theorem lar_empty_offset_loop_stop (cfg : Config) (lar : Archive) (n o : Nat)
    (h : ¬ (o < get_bootblock_offset cfg lar.size ∧ memcmp_eq lar.map o cfg.MAGIC 8 = true)) :
    lar_empty_offset_loop cfg lar (n + 1) o = some o := by
  rw [lar_empty_offset_loop]
  by_cases h1 : o < get_bootblock_offset cfg lar.size
  · rw [if_pos h1]
    have : memcmp_eq lar.map o cfg.MAGIC 8 = false := by
      cases hm : memcmp_eq lar.map o cfg.MAGIC 8
      · rfl
      · exact absurd ⟨h1, hm⟩ h
    simp [this]
  · rw [if_neg h1]

theorem lar_empty_offset_loop_inv (cfg : Config) (lar : Archive) (fuel k o : Nat)
    (h : lar_empty_offset_loop cfg lar fuel (chain cfg lar k) = some o) :
    ∃ k', k ≤ k' ∧ k' < k + fuel ∧ (∀ j, k ≤ j → j < k' → committed cfg lar j) ∧
      chain cfg lar k' = o ∧ ¬ committed cfg lar k' := by
  induction fuel generalizing k with
  | zero => simp [lar_empty_offset_loop] at h
  | succ fuel ih =>
    by_cases hc : committed cfg lar k
    · have hc' := hc
      unfold committed at hc'
      rw [lar_empty_offset_loop, if_pos hc'.1, hc'.2] at h
      simp only [Bool.not_true, Bool.false_eq_true, if_false] at h
      have h' : lar_empty_offset_loop cfg lar fuel (chain cfg lar (k + 1)) = some o := h
      obtain ⟨k', h1, h2, h3, h4, h5⟩ := ih (k + 1) h'
      refine ⟨k', by omega, by omega, ?_, h4, h5⟩
      intro j hj1 hj2
      by_cases hjk : j = k
      · rw [hjk]; exact hc
      · exact h3 j (by omega) hj2
    · rw [lar_empty_offset_loop_stop cfg lar fuel _ hc] at h
      refine ⟨k, by omega, by omega, ?_, ?_, hc⟩
      · intro j hj1 hj2; omega
      · exact Option.some.inj h

theorem lar_add_file_eq (cfg : Config) (w : World) (lar : Archive) (name : Bytes) (fuel o : Nat)
    (h : lar_empty_offset cfg lar fuel = some o) :
    lar_add_file cfg w lar name fuel = some (lar_add_file_at cfg w lar o name) := by
  unfold lar_add_file
  rw [h]
  rfl

theorem compress_step_store (w : World) (content : Bytes)
    (hst : ∀ x, w.compress_functions 0 x = x) (hl : content.length < 4294967296) :
    compress_step w 0 content = (0, content, content.length) := by
  unfold compress_step
  simp only [Nat.mod_eq_of_lt hl, List.take_length, hst]
  simp

theorem add_huge_file_status (content : Bytes) (hl : content.length = 4294967264) (w : World)
    (hw : w = plain_world (fun name => if name = [97] then some content else none) (-4096)) :
    (lar_add_file_at lar_h w (created 1048576) 0 [97]).1 = 0 := by
  have hs : split_name w [97] = some (0, [97], [97]) := by subst hw; rfl
  have hc : compress_step w 0 content = (0, content, content.length) :=
    compress_step_store w content (by subst hw; intro x; rfl) (by omega)
  have hh : hlen_of lar_h [97] = 32 := by decide
  have hg : get_bootblock_offset lar_h (created 1048576).size = 1028052 := by decide
  have ho : w.open_file [97] = some content := by subst hw; rfl
  have h1 : w.fstat_ok = true := by subst hw; rfl
  have h2 : w.alloc_ok = true := by subst hw; rfl
  have h3 : w.mmap_ok = true := by subst hw; rfl
  unfold lar_add_file_at
  simp only [hs, ho, hc, hh, hg, hl, h1, h2, h3]
  norm_num

theorem ntohl_at_store_htonl_mod (m : Mem) (a v : Nat) :
    ntohl_at (store_htonl m a v) a = v % 4294967296 := by
  unfold ntohl_at store_htonl
  simp
  omega

theorem write_record_below (cfg : Config) (_hwf : cfg.WF) (w : World) (m : Mem)
    (o thisalgo st_size : Nat) (temp : Bytes) (complen : Nat) (pathname : Bytes)
    (ho : o + hlen_of cfg pathname < 4294967296)
    (i : Nat) (hi : i < o) :
    write_record cfg w m o thisalgo st_size temp complen pathname i = m i := by
  unfold write_record
  rw [Nat.mod_eq_of_lt ho, store_htonl_out _ _ _ _ (by omega), memcpy_out _ _ _ _ _ (by omega),
    strncpy_out _ _ _ _ _ (by omega), store_htonl_out _ _ _ _ (by omega),
    store_htonl_out _ _ _ _ (by omega), store_htonl_out _ _ _ _ (by omega),
    store_htonl_out _ _ _ _ (by omega), memcpy_out _ _ _ _ _ (by omega),
    memset_out _ _ _ _ _ (by omega)]

theorem write_record_above (cfg : Config) (hwf : cfg.WF) (w : World) (m : Mem)
    (o thisalgo st_size : Nat) (temp : Bytes) (complen : Nat) (pathname : Bytes)
    (ho : o + hlen_of cfg pathname < 4294967296)
    (i : Nat) (hi : o + hlen_of cfg pathname + complen ≤ i) :
    write_record cfg w m o thisalgo st_size temp complen pathname i = m i := by
  have hb := hlen_bounds cfg hwf pathname
  have hf := wf_fields cfg hwf
  simp only [field_inside, fields_apart] at hf
  unfold write_record
  rw [Nat.mod_eq_of_lt ho, store_htonl_out _ _ _ _ (by omega), memcpy_out _ _ _ _ _ (by omega),
    strncpy_out _ _ _ _ _ (by omega), store_htonl_out _ _ _ _ (by omega),
    store_htonl_out _ _ _ _ (by omega), store_htonl_out _ _ _ _ (by omega),
    store_htonl_out _ _ _ _ (by omega), memcpy_out _ _ _ _ _ (by omega),
    memset_out _ _ _ _ _ (by omega)]

theorem write_record_magic (cfg : Config) (hwf : cfg.WF) (w : World) (m : Mem)
    (o thisalgo st_size : Nat) (temp : Bytes) (complen : Nat) (pathname : Bytes)
    (ho : o + hlen_of cfg pathname < 4294967296)
    (i : Nat) (hi : i < 8) :
    write_record cfg w m o thisalgo st_size temp complen pathname (o + i) = cfg.MAGIC.getD i 0 := by
  have hb := hlen_bounds cfg hwf pathname
  have hf := wf_fields cfg hwf
  simp only [field_inside, fields_apart] at hf
  unfold write_record
  rw [Nat.mod_eq_of_lt ho, store_htonl_out _ _ _ _ (by omega), memcpy_out _ _ _ _ _ (by omega),
    strncpy_out _ _ _ _ _ (by omega), store_htonl_out _ _ _ _ (by omega),
    store_htonl_out _ _ _ _ (by omega), store_htonl_out _ _ _ _ (by omega),
    store_htonl_out _ _ _ _ (by omega), memcpy_in _ _ _ _ _ (by omega) (by omega)]
  congr 1
  omega

theorem write_record_payload (cfg : Config) (hwf : cfg.WF) (w : World) (m : Mem)
    (o thisalgo st_size : Nat) (temp : Bytes) (complen : Nat) (pathname : Bytes)
    (ho : o + hlen_of cfg pathname < 4294967296)
    (i : Nat) (hi : i < complen) :
    write_record cfg w m o thisalgo st_size temp complen pathname (o + hlen_of cfg pathname + i)
      = temp.getD i 0 := by
  have hb := hlen_bounds cfg hwf pathname
  have hf := wf_fields cfg hwf
  simp only [field_inside, fields_apart] at hf
  unfold write_record
  rw [Nat.mod_eq_of_lt ho, store_htonl_out _ _ _ _ (by omega),
    memcpy_in _ _ _ _ _ (by omega) (by omega)]
  congr 1
  omega

theorem write_record_name (cfg : Config) (hwf : cfg.WF) (w : World) (m : Mem)
    (o thisalgo st_size : Nat) (temp : Bytes) (complen : Nat) (pathname : Bytes)
    (ho : o + hlen_of cfg pathname < 4294967296)
    (i : Nat) (hi : i < pathlen_of cfg pathname - 1) :
    write_record cfg w m o thisalgo st_size temp complen pathname (o + cfg.sizeof_lar_header + i)
      = pathname.getD i 0 := by
  have hb := hlen_bounds cfg hwf pathname
  have hf := wf_fields cfg hwf
  simp only [field_inside, fields_apart] at hf
  unfold write_record
  rw [Nat.mod_eq_of_lt ho, store_htonl_out _ _ _ _ (by omega), memcpy_out _ _ _ _ _ (by omega),
    strncpy_in _ _ _ _ _ (by omega) (by omega)]
  congr 1
  omega

theorem write_record_padding (cfg : Config) (hwf : cfg.WF) (w : World) (m : Mem)
    (o thisalgo st_size : Nat) (temp : Bytes) (complen : Nat) (pathname : Bytes)
    (ho : o + hlen_of cfg pathname < 4294967296)
    (i : Nat) (h1 : cfg.sizeof_lar_header + (pathlen_of cfg pathname - 1) ≤ i)
    (h2 : i < hlen_of cfg pathname) :
    write_record cfg w m o thisalgo st_size temp complen pathname (o + i) = 0 := by
  have hb := hlen_bounds cfg hwf pathname
  have hf := wf_fields cfg hwf
  simp only [field_inside, fields_apart] at hf
  unfold write_record
  rw [Nat.mod_eq_of_lt ho, store_htonl_out _ _ _ _ (by omega), memcpy_out _ _ _ _ _ (by omega),
    strncpy_out _ _ _ _ _ (by omega), store_htonl_out _ _ _ _ (by omega),
    store_htonl_out _ _ _ _ (by omega), store_htonl_out _ _ _ _ (by omega),
    store_htonl_out _ _ _ _ (by omega), memcpy_out _ _ _ _ _ (by omega),
    memset_in _ _ _ _ _ (by omega) (by omega)]

theorem write_record_len_field (cfg : Config) (hwf : cfg.WF) (w : World) (m : Mem)
    (o thisalgo st_size : Nat) (temp : Bytes) (complen : Nat) (pathname : Bytes)
    (ho : o + hlen_of cfg pathname < 4294967296) :
    ntohl_at (write_record cfg w m o thisalgo st_size temp complen pathname) (o + cfg.off_len)
      = complen % 4294967296 := by
  have hb := hlen_bounds cfg hwf pathname
  have hf := wf_fields cfg hwf
  simp only [field_inside, fields_apart] at hf
  unfold write_record
  simp only []
  rw [Nat.mod_eq_of_lt ho]
  rw [ntohl_at_congr _ _ _ (fun i h1 h2 => store_htonl_out _ _ _ i (by omega))]
  rw [ntohl_at_congr _ _ _ (fun i h1 h2 => memcpy_out _ _ _ _ i (by omega))]
  rw [ntohl_at_congr _ _ _ (fun i h1 h2 => strncpy_out _ _ _ _ i (by omega))]
  rw [ntohl_at_congr _ _ _ (fun i h1 h2 => store_htonl_out _ _ _ i (by omega))]
  exact ntohl_at_store_htonl_mod _ _ _

theorem write_record_reallen_field (cfg : Config) (hwf : cfg.WF) (w : World) (m : Mem)
    (o thisalgo st_size : Nat) (temp : Bytes) (complen : Nat) (pathname : Bytes)
    (ho : o + hlen_of cfg pathname < 4294967296) :
    ntohl_at (write_record cfg w m o thisalgo st_size temp complen pathname) (o + cfg.off_reallen)
      = st_size % 4294967296 := by
  have hb := hlen_bounds cfg hwf pathname
  have hf := wf_fields cfg hwf
  simp only [field_inside, fields_apart] at hf
  unfold write_record
  simp only []
  rw [Nat.mod_eq_of_lt ho]
  rw [ntohl_at_congr _ _ _ (fun i h1 h2 => store_htonl_out _ _ _ i (by omega))]
  rw [ntohl_at_congr _ _ _ (fun i h1 h2 => memcpy_out _ _ _ _ i (by omega))]
  rw [ntohl_at_congr _ _ _ (fun i h1 h2 => strncpy_out _ _ _ _ i (by omega))]
  rw [ntohl_at_congr _ _ _ (fun i h1 h2 => store_htonl_out _ _ _ i (by omega))]
  rw [ntohl_at_congr _ _ _ (fun i h1 h2 => store_htonl_out _ _ _ i (by omega))]
  exact ntohl_at_store_htonl_mod _ _ _

theorem write_record_compression_field (cfg : Config) (hwf : cfg.WF) (w : World) (m : Mem)
    (o thisalgo st_size : Nat) (temp : Bytes) (complen : Nat) (pathname : Bytes)
    (ho : o + hlen_of cfg pathname < 4294967296) :
    ntohl_at (write_record cfg w m o thisalgo st_size temp complen pathname)
      (o + cfg.off_compression) = thisalgo % 4294967296 := by
  have hb := hlen_bounds cfg hwf pathname
  have hf := wf_fields cfg hwf
  simp only [field_inside, fields_apart] at hf
  unfold write_record
  simp only []
  rw [Nat.mod_eq_of_lt ho]
  rw [ntohl_at_congr _ _ _ (fun i h1 h2 => store_htonl_out _ _ _ i (by omega))]
  rw [ntohl_at_congr _ _ _ (fun i h1 h2 => memcpy_out _ _ _ _ i (by omega))]
  rw [ntohl_at_congr _ _ _ (fun i h1 h2 => strncpy_out _ _ _ _ i (by omega))]
  rw [ntohl_at_congr _ _ _ (fun i h1 h2 => store_htonl_out _ _ _ i (by omega))]
  rw [ntohl_at_congr _ _ _ (fun i h1 h2 => store_htonl_out _ _ _ i (by omega))]
  rw [ntohl_at_congr _ _ _ (fun i h1 h2 => store_htonl_out _ _ _ i (by omega))]
  exact ntohl_at_store_htonl_mod _ _ _

theorem memcmp_eq_iff (m : Mem) (a : Nat) (s : Bytes) (n : Nat) :
    memcmp_eq m a s n = true ↔ ∀ i, i < n → m (a + i) = s.getD i 0 := by
  unfold memcmp_eq
  simp [List.all_eq_true]

theorem strncmp_eq_from_of_bytes (m : Mem) (a : Nat) (s : Bytes) (n k : Nat)
    (h : ∀ i, k ≤ i → i < k + n → m (a + i) = s.getD i 0) :
    strncmp_eq_from m a s n k = true := by
  induction n generalizing k with
  | zero => rfl
  | succ n ih =>
    rw [strncmp_eq_from, if_neg (by simp [h k (by omega) (by omega)])]
    split
    · rfl
    · exact ih (k + 1) (fun i h1 h2 => h i (by omega) (by omega))

theorem strncmp_eq_of_bytes (m : Mem) (a : Nat) (s : Bytes) (n : Nat)
    (h : ∀ i, i < n → m (a + i) = s.getD i 0) : strncmp_eq m a s n = true :=
  strncmp_eq_from_of_bytes m a s n 0 (fun i _ h2 => h i (by omega))

theorem cstring_of_nul (m : Mem) (N a n : Nat) (hn : n < N) (h0 : m (a + n) = 0) :
    ∃ s, cstring m N a = some s := by
  induction N generalizing a n with
  | zero => omega
  | succ N ih =>
    rw [cstring]
    by_cases hz : m a = 0
    · exact ⟨[], by rw [if_pos hz]⟩
    · rw [if_neg hz]
      have hn0 : n ≠ 0 := by
        intro e; subst e; exact hz (by simpa using h0)
      obtain ⟨s, hs⟩ := ih (a + 1) (n - 1) (by omega) (by
        have : a + 1 + (n - 1) = a + n := by omega
        rw [this]; exact h0)
      exact ⟨m a :: s, by rw [hs]; rfl⟩

theorem cstring_congr (m m' : Mem) (N a : Nat) (h : ∀ i, a ≤ i → i < a + N → m' i = m i) :
    cstring m' N a = cstring m N a := by
  induction N generalizing a with
  | zero => rfl
  | succ N ih =>
    rw [cstring, cstring, h a (by omega) (by omega),
      ih (a + 1) (fun i h1 h2 => h i (by omega) (by omega))]

theorem extract_step_selected (cfg : Config) (w : World) (lar : Archive)
    (files : Option (List Bytes)) (N fuel p : Nat) (ret : Int) (fn : Bytes)
    (hp : p < get_bootblock_offset cfg lar.size)
    (hm : strncmp_eq lar.map p cfg.MAGIC 8 = true)
    (hs : cstring lar.map N (p + cfg.sizeof_lar_header) = some fn)
    (hsel : file_in_list files fn = true)
    (hw : w.write_ok fn = true) (ha : w.alloc_ok = true) :
    (lar_extract_loop cfg w lar files N (fuel + 1) p ret).1 =
      (fn, entry_data cfg w lar.map p) ::
        (lar_extract_loop cfg w lar files N fuel (p + get_next_offset cfg lar.map p) 0).1 := by
  rw [lar_extract_loop]
  simp only [hp, hm, hs, hsel, ha, if_true, _write_file, hw, entry_data, Bool.not_true,
    Bool.false_eq_true, if_false]
  split <;> simp

theorem extract_step_skipped (cfg : Config) (w : World) (lar : Archive)
    (files : Option (List Bytes)) (N fuel p : Nat) (ret : Int) (fn : Bytes)
    (hp : p < get_bootblock_offset cfg lar.size)
    (hm : strncmp_eq lar.map p cfg.MAGIC 8 = true)
    (hs : cstring lar.map N (p + cfg.sizeof_lar_header) = some fn)
    (hsel : file_in_list files fn = false) :
    lar_extract_loop cfg w lar files N (fuel + 1) p ret =
      lar_extract_loop cfg w lar files N fuel (p + get_next_offset cfg lar.map p) ret := by
  rw [lar_extract_loop]
  simp only [hp, hm, hs, hsel, if_true, Bool.not_true, Bool.false_eq_true, if_false]

theorem chain_succ_of_sound (cfg : Config) (lar : Archive) (j : Nat)
    (h : entry_sound cfg lar j) :
    chain cfg lar (j + 1) = chain cfg lar j + get_next_offset cfg lar.map (chain cfg lar j) := by
  have hg := get_bootblock_offset_lt cfg lar.size
  rw [chain, Nat.mod_eq_of_lt]
  have := h.2.1
  omega

theorem chain_sound_le (cfg : Config) (lar : Archive) (k : Nat)
    (h : ∀ j, j < k → entry_sound cfg lar j) (j : Nat) (hj : j < k) :
    chain cfg lar (j + 1) ≤ chain cfg lar k := by
  induction k with
  | zero => omega
  | succ k ih =>
    by_cases hjk : j = k
    · subst hjk; exact Nat.le_refl _
    · have h1 := ih (fun i hi => h i (by omega)) (by omega)
      have h2 := chain_succ_of_sound cfg lar k (h k (by omega))
      omega

theorem wf_header_size (cfg : Config) (hwf : cfg.WF) : 12 ≤ cfg.sizeof_lar_header := by
  have hf := wf_fields cfg hwf
  simp only [field_inside, fields_apart] at hf
  omega

theorem get_next_offset_congr (cfg : Config) (hwf : cfg.WF) (m m' : Mem) (p : Nat)
    (h : ∀ i, p ≤ i → i < p + cfg.sizeof_lar_header → m' i = m i) :
    get_next_offset cfg m' p = get_next_offset cfg m p := by
  have hf := wf_fields cfg hwf
  simp only [field_inside, fields_apart] at hf
  unfold get_next_offset
  rw [ntohl_at_congr m m' (p + cfg.off_len) (fun i h1 h2 => h i (by omega) (by omega)),
    ntohl_at_congr m m' (p + cfg.off_offset) (fun i h1 h2 => h i (by omega) (by omega))]

theorem extract_reaches (cfg : Config) (hwf : cfg.WF) (w : World) (lar lar' : Archive)
    (files : Option (List Bytes)) (N k : Nat) (nm blob : Bytes)
    (hsz : lar'.size = lar.size)
    (hag : ∀ i, i < chain cfg lar k → lar'.map i = lar.map i)
    (hsound : ∀ j, j < k → entry_sound cfg lar j)
    (hN : chain cfg lar k ≤ N)
    (hwrite : ∀ n, w.write_ok n = true) (ha : w.alloc_ok = true)
    (hnew : ∀ fuel ret, ∃ post,
      (lar_extract_loop cfg w lar' files N (fuel + 1) (chain cfg lar k) ret).1
        = (nm, blob) :: post) :
    ∀ d j, j + d = k → ∀ fuel ret, d < fuel →
      ∃ pre post, (lar_extract_loop cfg w lar' files N fuel (chain cfg lar j) ret).1
        = pre ++ (nm, blob) :: post := by
  have h12 := wf_header_size cfg hwf
  intro d
  induction d with
  | zero =>
    intro j hj fuel ret hf
    have e : j = k := by omega
    subst e
    obtain ⟨f, rfl⟩ : ∃ f, fuel = f + 1 := ⟨fuel - 1, by omega⟩
    obtain ⟨post, hp⟩ := hnew f ret
    exact ⟨[], post, by rw [hp]; rfl⟩
  | succ d ih =>
    intro j hj fuel ret hf
    obtain ⟨f, rfl⟩ : ∃ f, fuel = f + 1 := ⟨fuel - 1, by omega⟩
    have hs := hsound j (by omega)
    obtain ⟨⟨hc1, hc2⟩, hend, n, hn1, hn2⟩ := hs
    have hstep := chain_succ_of_sound cfg lar j (hsound j (by omega))
    have hle := chain_sound_le cfg lar k hsound j (by omega)
    have hgno : get_next_offset cfg lar'.map (chain cfg lar j)
        = get_next_offset cfg lar.map (chain cfg lar j) :=
      get_next_offset_congr cfg hwf lar.map lar'.map _ (fun i h1 h2 => hag i (by omega))
    have hp : chain cfg lar j < get_bootblock_offset cfg lar'.size := by rw [hsz]; exact hc1
    have hm : strncmp_eq lar'.map (chain cfg lar j) cfg.MAGIC 8 = true := by
      apply strncmp_eq_of_bytes
      intro i hi
      rw [hag _ (by omega)]
      exact (memcmp_eq_iff _ _ _ _).1 hc2 i hi
    obtain ⟨fn, hfn⟩ := cstring_of_nul lar'.map N (chain cfg lar j + cfg.sizeof_lar_header) n
      (by omega) (by rw [hag _ (by omega)]; exact hn2)
    cases hsel : file_in_list files fn with
    | true =>
      obtain ⟨pre, post, hrec⟩ := ih (j + 1) (by omega) f 0 (by omega)
      rw [extract_step_selected cfg w lar' files N f _ ret fn hp hm hfn hsel (hwrite fn) ha,
        hgno, ← hstep, hrec]
      exact ⟨_ :: pre, post, rfl⟩
    | false =>
      obtain ⟨pre, post, hrec⟩ := ih (j + 1) (by omega) f ret (by omega)
      rw [extract_step_skipped cfg w lar' files N f _ ret fn hp hm hfn hsel, hgno, ← hstep, hrec]
      exact ⟨pre, post, rfl⟩

theorem extract_files_prefix (cfg : Config) (w : World) (lar : Archive)
    (files : Option (List Bytes)) (fuel : Nat) :
    ∃ tail, (lar_extract_files cfg w lar files fuel).1
      = (lar_extract_loop cfg w lar files fuel fuel 0 0).1 ++ tail := by
  unfold lar_extract_files
  simp only []
  split
  · exact ⟨[], by simp⟩
  · exact ⟨[], by simp⟩
  · split
    · exact ⟨_, rfl⟩
    · exact ⟨[], by simp⟩

theorem lar_add_file_success_inv (cfg : Config) (w : World) (lar lar' : Archive)
    (name filename pathname content temp : Bytes) (algo0 a c o fuel : Nat)
    (hoff : lar_empty_offset cfg lar fuel = some o)
    (hadd : lar_add_file cfg w lar name fuel = some (0, lar'))
    (hsplit : split_name w name = some (algo0, filename, pathname))
    (hopen : w.open_file filename = some content)
    (hc : compress_step w algo0 content = (a, temp, c)) :
    lar'.map = write_record cfg w lar.map o a content.length temp c pathname ∧
    lar'.size = lar.size ∧
    (o + hlen_of cfg pathname + c) % 4294967296 < get_bootblock_offset cfg lar.size := by
  rw [lar_add_file_eq cfg w lar name fuel o hoff] at hadd
  have hadd' : lar_add_file_at cfg w lar o name = (0, lar') := Option.some.inj hadd
  have hok : (lar_add_file_at cfg w lar o name).1 = 0 := by rw [hadd']
  obtain ⟨a0', f', p', c', h1, h2, _, _, _, h6, h7, h8⟩ := lar_add_file_at_ok cfg w lar o name hok
  rw [hsplit] at h1
  cases h1
  rw [hopen] at h2
  cases h2
  rw [hc] at h6 h8
  rw [hadd'] at h7 h8
  exact ⟨h8, h7, h6⟩

theorem compress_step_lt (w : World) (algo0 : Nat) (content : Bytes) :
    (compress_step w algo0 content).2.2 < 4294967296 := by
  unfold compress_step
  simp only []
  split
  · exact Nat.mod_lt _ (by decide)
  · exact Nat.mod_lt _ (by decide)

theorem annotate_bootblock_out (cfg : Config) (m : Mem) (p size i : Nat)
    (hbs : 13 ≤ cfg.BOOTBLOCK_SIZE) (h : i < p + cfg.BOOTBLOCK_SIZE - 13 ∨ p + cfg.BOOTBLOCK_SIZE ≤ i) :
    annotate_bootblock cfg m p size i = m i := by
  unfold annotate_bootblock
  rw [host_store32_out _ _ _ _ _ (by omega), memset_out _ _ _ _ _ (by omega)]

theorem strcpy_out (m : Mem) (a : Nat) (s : Bytes) (i : Nat) (h : i < a ∨ a + (s.length + 1) ≤ i) :
    strcpy m a s i = m i := by
  unfold strcpy; rw [if_neg]; omega

theorem lar_add_bootblock_cases (cfg : Config) (w : World) (lar : Archive)
    (bootblock : Option Bytes) :
    (lar_add_bootblock cfg w lar bootblock).2.size = lar.size ∧
    ∃ (content : Bytes) (n : Nat) (ann : Bool),
      n ≤ cfg.BOOTBLOCK_SIZE ∧ (bootblock = none → n = 0) ∧
      (ann = true ↔ (lar_add_bootblock cfg w lar bootblock).1 = 0) ∧
      (∀ f c, bootblock = some f → w.open_file f = some c →
        (lar_add_bootblock cfg w lar bootblock).1 = 0 →
        content = c ∧ n = cfg.BOOTBLOCK_SIZE) ∧
      (lar_add_bootblock cfg w lar bootblock).2.map =
        (fun m => if ann then annotate_bootblock cfg m
            (get_bootblock_offset cfg lar.size + cfg.sizeof_lar_header + cfg.BOOTBLOCK_NAME_LEN)
            lar.size else m)
          (memcpy (bootblock_header cfg lar.map (get_bootblock_offset cfg lar.size))
            (get_bootblock_offset cfg lar.size + cfg.sizeof_lar_header + cfg.BOOTBLOCK_NAME_LEN)
            content n) := by
  have memcpy0 : ∀ (m : Mem) (a : Nat) (s : Bytes), memcpy m a s 0 = m := by
    intro m a s; funext i; unfold memcpy; rw [if_neg]; omega
  unfold lar_add_bootblock
  simp only []
  split
  · refine ⟨rfl, [], 0, true, by omega, fun _ => rfl, by simp, ?_, ?_⟩
    · intro f c h; cases h
    · simp only [memcpy0, if_true]; rfl
  · rename_i file
    split
    · rename_i hop
      refine ⟨rfl, [], 0, false, by omega, (fun h => by cases h), by simp, ?_, ?_⟩
      · intro f c h1 h2 h3; simp at h3
      · simp only [memcpy0]; rfl
    · rename_i content hop
      split
      · refine ⟨rfl, [], 0, false, by omega, (fun h => by cases h), by simp, ?_, ?_⟩
        · intro f c h1 h2 h3; simp at h3
        · simp only [memcpy0]; rfl
      · split
        · refine ⟨rfl, [], 0, false, by omega, (fun h => by cases h), by simp, ?_, ?_⟩
          · intro f c h1 h2 h3; simp at h3
          · simp only [memcpy0]; rfl
        · split
          · refine ⟨rfl, content, min (w.read_count cfg.BOOTBLOCK_SIZE) cfg.BOOTBLOCK_SIZE, false,
              Nat.min_le_right _ _, (fun h => by cases h), by simp, ?_, ?_⟩
            · intro f c h1 h2 h3; simp at h3
            · rfl
          · rename_i hret
            refine ⟨rfl, content, min (w.read_count cfg.BOOTBLOCK_SIZE) cfg.BOOTBLOCK_SIZE, true,
              Nat.min_le_right _ _, (fun h => by cases h), by simp, ?_, ?_⟩
            · intro f c h1 h2 h3
              cases h1
              rw [hop] at h2
              cases h2
              exact ⟨rfl, by simpa using hret⟩
            · rfl

theorem bootblock_header_out (cfg : Config) (m : Mem) (b i : Nat)
    (h : ¬ ((b ≤ i ∧ i < b + 8) ∨ (b + cfg.off_reallen ≤ i ∧ i < b + cfg.off_reallen + 4) ∨
      (b + cfg.off_len ≤ i ∧ i < b + cfg.off_len + 4) ∨
      (b + cfg.off_offset ≤ i ∧ i < b + cfg.off_offset + 4) ∨
      (b + cfg.sizeof_lar_header ≤ i ∧
        i < b + cfg.sizeof_lar_header + (cfg.BOOTBLOCK_NAME.length + 1)))) :
    bootblock_header cfg m b i = m i := by
  unfold bootblock_header
  rw [strcpy_out _ _ _ _ (by omega), store_htonl_out _ _ _ _ (by omega),
    store_htonl_out _ _ _ _ (by omega), store_htonl_out _ _ _ _ (by omega),
    memcpy_out _ _ _ _ _ (by omega)]

theorem lar_list_files_bootblock (cfg : Config) (lar : Archive) (files : Option (List Bytes))
    (fuel : Nat) (hdone : (lar_list_loop cfg lar files fuel fuel 0).2 = true)
    (hsel : file_in_list files cfg.BOOTBLOCK_NAME = true) :
    lar_list_files cfg lar files fuel =
      ((lar_list_loop cfg lar files fuel fuel 0).1 ++
        [{ name := cfg.BOOTBLOCK_NAME
           compression := 0
           reallen := ntohl_at lar.map (get_bootblock_offset cfg lar.size + cfg.off_len)
           len := ntohl_at lar.map (get_bootblock_offset cfg lar.size + cfg.off_len)
           addr := (get_bootblock_offset cfg lar.size
             + ntohl_at lar.map (get_bootblock_offset cfg lar.size + cfg.off_offset))
               % 4294967296 }], true) := by
  unfold lar_list_files
  simp only [hdone, hsel, Bool.not_true, Bool.false_eq_true, if_false, if_true]

theorem lar_empty_offset_loop_stuck (cfg : Config) (lar : Archive) (p : Nat)
    (hp : p < get_bootblock_offset cfg lar.size)
    (hm : memcmp_eq lar.map p cfg.MAGIC 8 = true)
    (h0 : get_next_offset cfg lar.map p = 0) (fuel : Nat) :
    lar_empty_offset_loop cfg lar fuel p = none := by
  have hg := get_bootblock_offset_lt cfg lar.size
  induction fuel with
  | zero => rfl
  | succ n ih =>
    rw [lar_empty_offset_loop, if_pos hp, hm, h0]
    simp only [Bool.not_true, Bool.false_eq_true, if_false, Nat.add_zero]
    rw [Nat.mod_eq_of_lt (by omega)]
    exact ih

theorem lar_list_loop_stuck (cfg : Config) (lar : Archive) (files : Option (List Bytes))
    (N p : Nat) (hp : p < get_bootblock_offset cfg lar.size)
    (hm : strncmp_eq lar.map p cfg.MAGIC 8 = true)
    (h0 : get_next_offset cfg lar.map p = 0) (fuel : Nat) :
    (lar_list_loop cfg lar files N fuel p).2 = false := by
  induction fuel with
  | zero => rfl
  | succ n ih =>
    rw [lar_list_loop, if_pos hp, hm, h0]
    simp only [Bool.not_true, Bool.false_eq_true, if_false, Nat.add_zero]
    split
    · rfl
    · split
      · exact ih
      · exact ih

theorem lar_extract_loop_stuck (cfg : Config) (w : World) (lar : Archive)
    (files : Option (List Bytes)) (N p : Nat) (hp : p < get_bootblock_offset cfg lar.size)
    (hm : strncmp_eq lar.map p cfg.MAGIC 8 = true)
    (h0 : get_next_offset cfg lar.map p = 0)
    (hw : ∀ n, w.write_ok n = true) (ha : w.alloc_ok = true) (fuel : Nat) (ret : Int) :
    (lar_extract_loop cfg w lar files N fuel p ret).2 = Scan.running := by
  induction fuel generalizing ret with
  | zero => rfl
  | succ n ih =>
    rw [lar_extract_loop, if_pos hp, hm, h0]
    simp only [Bool.not_true, Bool.false_eq_true, if_false, Nat.add_zero, _write_file, hw, ha,
      if_true]
    split
    · rfl
    · split
      · split
        · simp [ih]
        · simp [ih]
      · exact ih ret



theorem file_in_list_loop_iff (l : List Bytes) (name : Bytes) :
    file_in_list_loop l name = true ↔ name ∈ l := by
  induction l with
  | nil => simp [file_in_list_loop]
  | cons p rest ih =>
    rw [file_in_list_loop]
    by_cases h : p = name
    · simp [h]
    · rw [if_neg h, ih]
      simp [Ne.symm h]

theorem file_in_list_single (n name : Bytes) :
    file_in_list (some [n]) name = decide (name = n) := by
  unfold file_in_list
  simp only [file_in_list_loop]
  by_cases h : n = name
  · simp [h]
  · simp [h, Ne.symm h]

theorem file_in_list_none (name : Bytes) : file_in_list none name = true := rfl

theorem lar_list_loop_filter (cfg : Config) (lar : Archive) (n : Bytes) (N fuel p : Nat) :
    lar_list_loop cfg lar (some [n]) N fuel p =
      ((lar_list_loop cfg lar none N fuel p).1.filter (fun l => decide (l.name = n)),
       (lar_list_loop cfg lar none N fuel p).2) := by
  induction fuel generalizing p with
  | zero => rfl
  | succ k ih =>
    rw [lar_list_loop, lar_list_loop]
    split
    · split
      · rfl
      · split
        · rfl
        · rename_i fn hfn
          simp only [file_in_list_single, ih, file_in_list_none, if_true]
          by_cases h : fn = n
          · simp [h]
          · simp [h]
    · rfl

theorem lar_list_files_filter (cfg : Config) (lar : Archive) (n : Bytes) (fuel : Nat) :
    lar_list_files cfg lar (some [n]) fuel =
      ((lar_list_files cfg lar none fuel).1.filter (fun l => decide (l.name = n)),
       (lar_list_files cfg lar none fuel).2) := by
  unfold lar_list_files
  simp only [lar_list_loop_filter cfg lar n fuel fuel 0, file_in_list_single, file_in_list_none]
  cases hd : (lar_list_loop cfg lar none fuel fuel 0).2
  · simp [hd]
  · by_cases h : cfg.BOOTBLOCK_NAME = n
    · simp [h]
    · simp [h]

theorem extract_step_written (cfg : Config) (w : World) (lar : Archive)
    (files : Option (List Bytes)) (N fuel p : Nat) (ret : Int) (fn : Bytes)
    (hp : p < get_bootblock_offset cfg lar.size)
    (hm : strncmp_eq lar.map p cfg.MAGIC 8 = true)
    (hs : cstring lar.map N (p + cfg.sizeof_lar_header) = some fn)
    (hsel : file_in_list files fn = true)
    (hw : w.write_ok fn = true) (ha : w.alloc_ok = true) :
    lar_extract_loop cfg w lar files N (fuel + 1) p ret =
      ((fn, entry_data cfg w lar.map p) ::
        (lar_extract_loop cfg w lar files N fuel (p + get_next_offset cfg lar.map p) 0).1,
       (lar_extract_loop cfg w lar files N fuel (p + get_next_offset cfg lar.map p) 0).2) := by
  rw [lar_extract_loop]
  simp only [hp, hm, hs, hsel, ha, if_true, _write_file, hw, entry_data, Bool.not_true,
    Bool.false_eq_true, if_false]
  split <;> simp

theorem extract_step_end (cfg : Config) (w : World) (lar : Archive)
    (files : Option (List Bytes)) (N fuel p : Nat) (ret : Int)
    (h : ¬ (p < get_bootblock_offset cfg lar.size ∧ strncmp_eq lar.map p cfg.MAGIC 8 = true)) :
    lar_extract_loop cfg w lar files N (fuel + 1) p ret = ([], Scan.left ret) := by
  rw [lar_extract_loop]
  by_cases hp : p < get_bootblock_offset cfg lar.size
  · have hm : strncmp_eq lar.map p cfg.MAGIC 8 = false := by
      cases hm : strncmp_eq lar.map p cfg.MAGIC 8
      · rfl
      · exact absurd ⟨hp, hm⟩ h
    simp [hp, hm]
  · simp [hp]

theorem extract_step_noname (cfg : Config) (w : World) (lar : Archive)
    (files : Option (List Bytes)) (N fuel p : Nat) (ret : Int)
    (hp : p < get_bootblock_offset cfg lar.size)
    (hm : strncmp_eq lar.map p cfg.MAGIC 8 = true)
    (hs : cstring lar.map N (p + cfg.sizeof_lar_header) = none) :
    lar_extract_loop cfg w lar files N (fuel + 1) p ret = ([], Scan.running) := by
  rw [lar_extract_loop]
  simp only [hp, hm, hs, if_true, Bool.not_true, Bool.false_eq_true, if_false]

theorem lar_extract_loop_status (cfg : Config) (w : World) (lar : Archive)
    (files : Option (List Bytes)) (N : Nat) (hw : ∀ x, w.write_ok x = true)
    (ha : w.alloc_ok = true) (fuel p : Nat) (ret : Int) :
    (lar_extract_loop cfg w lar files N fuel p ret).2 = Scan.running ∨
    (lar_extract_loop cfg w lar files N fuel p ret).2 = Scan.left ret ∨
    (lar_extract_loop cfg w lar files N fuel p ret).2 = Scan.left 0 := by
  induction fuel generalizing p ret with
  | zero => exact Or.inl rfl
  | succ k ih =>
    by_cases hc : p < get_bootblock_offset cfg lar.size ∧ strncmp_eq lar.map p cfg.MAGIC 8 = true
    · cases hs : cstring lar.map N (p + cfg.sizeof_lar_header) with
      | none =>
        rw [extract_step_noname cfg w lar files N k p ret hc.1 hc.2 hs]
        exact Or.inl rfl
      | some fn =>
        cases hsel : file_in_list files fn with
        | true =>
          rw [extract_step_written cfg w lar files N k p ret fn hc.1 hc.2 hs hsel (hw fn) ha]
          rcases ih (p + get_next_offset cfg lar.map p) 0 with h | h | h
          · exact Or.inl h
          · exact Or.inr (Or.inr h)
          · exact Or.inr (Or.inr h)
        | false =>
          rw [extract_step_skipped cfg w lar files N k p ret fn hc.1 hc.2 hs hsel]
          exact ih _ ret
    · rw [extract_step_end cfg w lar files N k p ret hc]
      exact Or.inr (Or.inl rfl)

theorem lar_extract_loop_filter (cfg : Config) (w : World) (lar : Archive) (n : Bytes) (N : Nat)
    (hw : ∀ x, w.write_ok x = true) (ha : w.alloc_ok = true) (fuel p : Nat) (ret ret' : Int) :
    (lar_extract_loop cfg w lar (some [n]) N fuel p ret).1 =
      (lar_extract_loop cfg w lar none N fuel p ret').1.filter (fun e => decide (e.1 = n)) ∧
    ((lar_extract_loop cfg w lar (some [n]) N fuel p ret).2 = Scan.running ↔
      (lar_extract_loop cfg w lar none N fuel p ret').2 = Scan.running) := by
  induction fuel generalizing p ret ret' with
  | zero => exact ⟨rfl, Iff.rfl⟩
  | succ k ih =>
    by_cases hc : p < get_bootblock_offset cfg lar.size ∧ strncmp_eq lar.map p cfg.MAGIC 8 = true
    · cases hs : cstring lar.map N (p + cfg.sizeof_lar_header) with
      | none =>
        rw [extract_step_noname cfg w lar _ N k p ret hc.1 hc.2 hs,
          extract_step_noname cfg w lar _ N k p ret' hc.1 hc.2 hs]
        exact ⟨rfl, Iff.rfl⟩
      | some fn =>
        rw [extract_step_written cfg w lar none N k p ret' fn hc.1 hc.2 hs rfl (hw fn) ha]
        by_cases hfn : fn = n
        · rw [extract_step_written cfg w lar (some [n]) N k p ret fn hc.1 hc.2 hs
            (by rw [file_in_list_single]; simp [hfn]) (hw fn) ha]
          obtain ⟨h1, h2⟩ := ih (p + get_next_offset cfg lar.map p) 0 0
          refine ⟨?_, h2⟩
          simp [hfn, h1]
        · rw [extract_step_skipped cfg w lar (some [n]) N k p ret fn hc.1 hc.2 hs
            (by rw [file_in_list_single]; simp [hfn])]
          obtain ⟨h1, h2⟩ := ih (p + get_next_offset cfg lar.map p) ret 0
          refine ⟨?_, h2⟩
          simp [hfn, h1]
    · rw [extract_step_end cfg w lar _ N k p ret hc, extract_step_end cfg w lar _ N k p ret' hc]
      exact ⟨rfl, by simp⟩

theorem lar_extract_files_filter (cfg : Config) (w : World) (lar : Archive) (n : Bytes)
    (hw : ∀ x, w.write_ok x = true) (ha : w.alloc_ok = true) (fuel : Nat) :
    lar_extract_files cfg w lar (some [n]) fuel =
      ((lar_extract_files cfg w lar none fuel).1.filter (fun e => decide (e.1 = n)),
       (lar_extract_files cfg w lar none fuel).2) := by
  obtain ⟨h1, h2⟩ := lar_extract_loop_filter cfg w lar n fuel hw ha fuel 0 0 0
  have hs1 := lar_extract_loop_status cfg w lar (some [n]) fuel hw ha fuel 0 0
  have hs2 := lar_extract_loop_status cfg w lar none fuel hw ha fuel 0 0
  unfold lar_extract_files
  simp only [file_in_list_single, file_in_list_none, _write_file, hw, if_true]
  rcases hs2 with h | h | h
  · have h' := h2.2 h
    simp only [h, h', h1]
  · have h' : (lar_extract_loop cfg w lar (some [n]) fuel fuel 0 0).2 = Scan.left 0 := by
      rcases hs1 with g | g | g
      · rw [h2.1 g] at h; cases h
      · exact g
      · exact g
    simp only [h, h', h1]
    by_cases hb : cfg.BOOTBLOCK_NAME = n
    · simp [hb]
    · simp [hb]
  · have h' : (lar_extract_loop cfg w lar (some [n]) fuel fuel 0 0).2 = Scan.left 0 := by
      rcases hs1 with g | g | g
      · rw [h2.1 g] at h; cases h
      · exact g
      · exact g
    simp only [h, h', h1]
    by_cases hb : cfg.BOOTBLOCK_NAME = n
    · simp [hb]
    · simp [hb]

theorem extract_none_selected (cfg : Config) (w : World) (lar : Archive) (n : Bytes) (N : Nat)
    (fuel p : Nat) (ret : Int)
    (hdone : (lar_list_loop cfg lar none N fuel p).2 = true)
    (hno : ∀ l, l ∈ (lar_list_loop cfg lar none N fuel p).1 → l.name ≠ n) :
    lar_extract_loop cfg w lar (some [n]) N fuel p ret = ([], Scan.left ret) := by
  induction fuel generalizing p with
  | zero => simp [lar_list_loop] at hdone
  | succ k ih =>
    by_cases hc : p < get_bootblock_offset cfg lar.size ∧ strncmp_eq lar.map p cfg.MAGIC 8 = true
    · rw [lar_list_loop] at hdone hno
      simp only [hc.1, hc.2, if_true, Bool.not_true, Bool.false_eq_true, if_false] at hdone hno
      cases hs : cstring lar.map N (p + cfg.sizeof_lar_header) with
      | none => rw [hs] at hdone; simp at hdone
      | some fn =>
        rw [hs] at hdone hno
        simp only [file_in_list_none, if_true] at hdone hno
        have hfn : fn ≠ n := hno _ (List.mem_cons_self _ _)
        rw [extract_step_skipped cfg w lar (some [n]) N k p ret fn hc.1 hc.2 hs
          (by rw [file_in_list_single]; simp [hfn])]
        exact ih _ hdone (fun l hl => hno l (List.mem_cons_of_mem _ hl))
    · exact extract_step_end cfg w lar _ N k p ret hc

theorem strncmp_eq_from_iff (m : Mem) (a : Nat) (s : Bytes) (n k : Nat)
    (hs : ∀ i, i < k + n → s.getD i 0 ≠ 0) :
    strncmp_eq_from m a s n k = true ↔ ∀ i, k ≤ i → i < k + n → m (a + i) = s.getD i 0 := by
  constructor
  · induction n generalizing k with
    | zero => intro _ i h1 h2; omega
    | succ n ih =>
      intro h i h1 h2
      rw [strncmp_eq_from] at h
      by_cases hk : m (a + k) = s.getD k 0
      · rw [if_neg (by simpa using hk)] at h
        have hnz : m (a + k) ≠ 0 := by rw [hk]; exact hs k (by omega)
        rw [if_neg hnz] at h
        by_cases hik : i = k
        · rw [hik]; exact hk
        · exact ih (k + 1) (fun j hj => hs j (by omega)) h i (by omega) (by omega)
      · rw [if_pos (by simpa using hk)] at h
        cases h
  · exact strncmp_eq_from_of_bytes m a s n k

theorem strncmp_eq_memcmp (cfg : Config) (hwf : cfg.WF) (m : Mem) (a : Nat) :
    strncmp_eq m a cfg.MAGIC 8 = memcmp_eq m a cfg.MAGIC 8 := by
  have hmag : ∀ i, i < 0 + 8 → cfg.MAGIC.getD i 0 ≠ 0 := by
    intro i hi
    have hl : cfg.MAGIC.length = 8 := hwf.1
    have hb := hwf.2.1
    have hi' : i < cfg.MAGIC.length := by omega
    rw [List.getD_eq_getElem?_getD, List.getElem?_eq_getElem hi']
    have := (hb _ (List.getElem_mem hi')).1
    simp only [Option.getD_some]
    omega
  have h1 := strncmp_eq_from_iff m a cfg.MAGIC 8 0 hmag
  have h2 := memcmp_eq_iff m a cfg.MAGIC 8
  unfold strncmp_eq
  cases hs : strncmp_eq_from m a cfg.MAGIC 8 0
  · cases hm : memcmp_eq m a cfg.MAGIC 8
    · rfl
    · have := h1.2 (fun i _ hi => h2.1 hm i (by omega))
      rw [hs] at this
      cases this
  · exact (h2.2 (fun i hi => h1.1 hs i (by omega) (by omega))).symm

theorem scan_steps_eq (cfg : Config) (hwf : cfg.WF) (lar : Archive) (fuel p : Nat)
    (hnowrap : ∀ q, q ∈ lar_empty_offset_steps cfg lar fuel p →
      q + get_next_offset cfg lar.map q < 4294967296) :
    scan_steps cfg lar fuel p = lar_empty_offset_steps cfg lar fuel p := by
  induction fuel generalizing p with
  | zero => rfl
  | succ k ih =>
    rw [scan_steps, lar_empty_offset_steps, strncmp_eq_memcmp cfg hwf]
    rw [lar_empty_offset_steps] at hnowrap
    by_cases hp : p < get_bootblock_offset cfg lar.size
    · cases hm : memcmp_eq lar.map p cfg.MAGIC 8
      · simp [hp]
      · simp only [hp, hm, if_true, Bool.not_true, Bool.false_eq_true, if_false] at hnowrap ⊢
        have hq := hnowrap p (List.mem_cons_self _ _)
        rw [Nat.mod_eq_of_lt hq] at hnowrap ⊢
        rw [ih _ (fun q hq' => hnowrap q (List.mem_cons_of_mem _ hq'))]
    · simp [hp]

theorem steps_chain (cfg : Config) (lar : Archive) (fuel k : Nat) :
    lar_empty_offset_steps cfg lar fuel (chain cfg lar k) =
      ((List.range' k fuel).takeWhile (fun j => decide (committed cfg lar j))).map
        (chain cfg lar) := by
  induction fuel generalizing k with
  | zero => rfl
  | succ f ih =>
    rw [lar_empty_offset_steps, List.range'_succ, List.takeWhile_cons]
    by_cases hp : chain cfg lar k < get_bootblock_offset cfg lar.size
    · cases hm : memcmp_eq lar.map (chain cfg lar k) cfg.MAGIC 8
      · have hc : ¬ committed cfg lar k := by
          intro h; rw [h.2] at hm; cases hm
        simp [hp, hc]
      · have hc : committed cfg lar k := ⟨hp, hm⟩
        have hnext : (chain cfg lar k + get_next_offset cfg lar.map (chain cfg lar k)) % 4294967296
            = chain cfg lar (k + 1) := rfl
        simp only [hp, if_true, Bool.not_true, Bool.false_eq_true, if_false, hc, decide_True,
          List.map_cons, hnext, ih]
    · have hc : ¬ committed cfg lar k := fun h => hp h.1
      simp [hp, hc]

theorem list_loop_steps (cfg : Config) (lar : Archive) (N fuel p : Nat)
    (hname : ∀ q, q ∈ scan_steps cfg lar fuel p →
      (cstring lar.map N (q + cfg.sizeof_lar_header)).isSome = true) :
    (lar_list_loop cfg lar none N fuel p).1 =
      (scan_steps cfg lar fuel p).map (entry_line cfg lar N) := by
  induction fuel generalizing p with
  | zero => rfl
  | succ f ih =>
    rw [lar_list_loop, scan_steps]
    rw [scan_steps] at hname
    by_cases hp : p < get_bootblock_offset cfg lar.size
    · cases hm : strncmp_eq lar.map p cfg.MAGIC 8
      · simp [hp]
      · simp only [hp, hm, if_true, Bool.not_true, Bool.false_eq_true, if_false] at hname ⊢
        have h0 := hname p (List.mem_cons_self _ _)
        cases hs : cstring lar.map N (p + cfg.sizeof_lar_header) with
        | none => rw [hs] at h0; cases h0
        | some fn =>
          simp only [file_in_list_none, if_true, List.map_cons, entry_line, hs, Option.getD_some]
          rw [ih _ (fun q hq => hname q (List.mem_cons_of_mem _ hq))]
    · simp [hp]

theorem extract_loop_steps (cfg : Config) (w : World) (lar : Archive) (N fuel p : Nat) (ret : Int)
    (hw : ∀ x, w.write_ok x = true) (ha : w.alloc_ok = true)
    (hname : ∀ q, q ∈ scan_steps cfg lar fuel p →
      (cstring lar.map N (q + cfg.sizeof_lar_header)).isSome = true) :
    (lar_extract_loop cfg w lar none N fuel p ret).1 =
      (scan_steps cfg lar fuel p).map
        (fun q => ((cstring lar.map N (q + cfg.sizeof_lar_header)).getD [],
          entry_data cfg w lar.map q)) := by
  induction fuel generalizing p ret with
  | zero => rfl
  | succ f ih =>
    rw [scan_steps]
    rw [scan_steps] at hname
    by_cases hc : p < get_bootblock_offset cfg lar.size ∧ strncmp_eq lar.map p cfg.MAGIC 8 = true
    · simp only [hc.1, hc.2, if_true, Bool.not_true, Bool.false_eq_true, if_false] at hname ⊢
      have h0 := hname p (List.mem_cons_self _ _)
      cases hs : cstring lar.map N (p + cfg.sizeof_lar_header) with
      | none => rw [hs] at h0; cases h0
      | some fn =>
        rw [extract_step_written cfg w lar none N f p ret fn hc.1 hc.2 hs rfl (hw fn) ha]
        simp only [List.map_cons, hs, Option.getD_some]
        rw [ih _ 0 (fun q hq => hname q (List.mem_cons_of_mem _ hq))]
    · rw [extract_step_end cfg w lar none N f p ret hc]
      by_cases hp : p < get_bootblock_offset cfg lar.size
      · have hm : strncmp_eq lar.map p cfg.MAGIC 8 = false := by
          cases hm : strncmp_eq lar.map p cfg.MAGIC 8
          · rfl
          · exact absurd ⟨hp, hm⟩ hc
        simp [hp, hm]
      · simp [hp]

theorem list_files_tail (cfg : Config) (lar : Archive) (files : Option (List Bytes))
    (fuel : Nat) :
    ∃ tail, tail.length ≤ 1 ∧ (lar_list_files cfg lar files fuel).1
      = (lar_list_loop cfg lar files fuel fuel 0).1 ++ tail := by
  unfold lar_list_files
  simp only []
  split
  · exact ⟨[], by simp, by simp⟩
  · split
    · exact ⟨_, by simp, rfl⟩
    · exact ⟨[], by simp, by simp⟩

theorem extract_files_tail (cfg : Config) (w : World) (lar : Archive)
    (files : Option (List Bytes)) (fuel : Nat) :
    ∃ tail, tail.length ≤ 1 ∧ (lar_extract_files cfg w lar files fuel).1
      = (lar_extract_loop cfg w lar files fuel fuel 0 0).1 ++ tail := by
  unfold lar_extract_files
  simp only []
  split
  · exact ⟨[], by simp, by simp⟩
  · exact ⟨[], by simp, by simp⟩
  · split
    · refine ⟨_, ?_, rfl⟩
      unfold _write_file
      split <;> simp
    · exact ⟨[], by simp, by simp⟩

/-- C2, capacity. The claim asks that `lar_add_file` fail whenever
`o + h + c`, taken as natural numbers, reaches the bootblock offset. The code
forms the sum in `u32`: in the fresh 1 MiB archive (free offset 0, bootblock
offset 1028052) the file `a` of `2^32 - 32` bytes has header size 32, the
`u32` sum is 0, and the call returns 0 although `0 + 32 + (2^32 - 32)` is far
beyond the bootblock offset. -/
theorem capacity_check_wraps :
    lar_empty_offset lar_h (created 1048576) 1 = some 0 ∧
    (lar_add_file lar_h (plain_world huge_file (-4096)) (created 1048576) [97] 1).map
      (fun r => r.1) = some 0 ∧
    get_bootblock_offset lar_h (created 1048576).size ≤ 0 + hlen_of lar_h [97] + 4294967264 := by
  have e : lar_empty_offset lar_h (created 1048576) 1 = some 0 := by decide
  refine ⟨e, ?_, by decide⟩
  rw [lar_add_file_eq _ _ _ _ _ _ e, Option.map_some']
  exact congrArg some
    (add_huge_file_status (List.replicate 4294967264 0) (List.length_replicate _ _)
      (plain_world huge_file (-4096)) rfl)

/-- C3, checksum. The claim asks that the stored checksum be the 32-bit sum of
the big-endian words of the written record. The loop of the code stops at the
address `temp + complen + hlen`, taken from the scratch buffer: with that
buffer below the mapping, adding the 4-byte file `a` to a fresh archive of 30000
bytes writes a record of 32 + 4 bytes (9 words) whose word sum is 4136414132,
and stores 0 in the checksum field. -/
theorem checksum_not_the_word_sum :
    (lar_add_file lar_h (plain_world one_file (-4096)) (created 30000) [97] 1).map
      (fun r => (r.1, hlen_of lar_h [97], ntohl_at r.2.map (0 + lar_h.off_checksum),
        be_word_sum r.2.map 0 9)) = some (0, 32, 0, 4136414132) := by
  decide

/-- C4, size validation on open. For a file of `L ≥ 12` bytes,
`lar_open_archive` yields no handle when the 32-bit value in the 4 bytes at
`L - 12` differs from `L`, and yields the handle (the mapping with size `L`)
when the value equals `L` and the allocation, `fstat` and `mmap` succeeded. -/
theorem lar_open_archive_size_check (cfg : Config) (w : World) (L : Nat) (file : Mem)
    (hL : 12 ≤ L) :
    (host_load32 cfg file (L - 12) % 4294967296 ≠ L → lar_open_archive cfg w L file = none) ∧
    (host_load32 cfg file (L - 12) % 4294967296 = L →
      w.alloc_ok = true → w.fstat_ok = true → w.mmap_ok = true →
      lar_open_archive cfg w L file = some { map := file, size := L }) :=
  lar_open_archive_size_check_aux cfg w L file hL

theorem lar_open_archive_size_check_witness :
    lar_open_archive lar_h (plain_world one_file 0) 30000 (fun _ => 0) = none ∧
    lar_open_archive lar_h (plain_world one_file 0) 30000 (created 30000).map
      = some { map := (created 30000).map, size := 30000 } :=
  ⟨(lar_open_archive_size_check lar_h (plain_world one_file 0) 30000 (fun _ => 0)
      (by decide)).1 (by decide),
   (lar_open_archive_size_check lar_h (plain_world one_file 0) 30000 (created 30000).map
      (by decide)).2 (by decide) rfl rfl rfl⟩

/-- C5, the size field written by create is the one open checks. For a `u32`
size `S` of at least `BOOTBLOCK_SIZE + sizeof(struct lar_header) +
BOOTBLOCK_NAME_LEN`, after the `0xFF` fill and `lar_add_bootblock(lar, NULL)`:
the call succeeds, the 4 bytes at `S - 12` hold `S` in host order, the last 8
bytes are zero, `lar_read_size` returns `S`, the size check of
`lar_open_archive` passes on these bytes, and this archive is the one
`lar_new_archive` returns. -/
theorem new_archive_size_field (cfg : Config) (hwf : cfg.WF) (w : World) (fresh : Mem) (S : Nat)
    (hS : S < 4294967296)
    (hR : cfg.BOOTBLOCK_SIZE + cfg.sizeof_lar_header + cfg.BOOTBLOCK_NAME_LEN ≤ S)
    (r : Int × Archive)
    (hr : lar_add_bootblock cfg w { map := memset fresh 0 255 S, size := S } none = r) :
    r.1 = 0 ∧ r.2.size = S ∧
    host_load32 cfg r.2.map (S - 12) = S ∧
    (∀ i, S - 8 ≤ i → i < S → r.2.map i = 0) ∧
    lar_read_size cfg r.2 = S ∧
    (w.alloc_ok = true → w.fstat_ok = true → w.mmap_ok = true →
      lar_open_archive cfg w S r.2.map = some r.2) ∧
    (w.archive_exists = false → w.alloc_ok = true → w.create_ok = true → w.mmap_ok = true →
      lar_new_archive cfg w fresh S = some r.2) := by
  have hs := wf_sizes cfg hwf
  have hg := get_bootblock_offset_eq cfg S hS hR
  have h1 : r.1 = 0 := by rw [← hr]; rfl
  have h2 : r.2.size = S := by rw [← hr]; rfl
  have hp : get_bootblock_offset cfg S + cfg.sizeof_lar_header + cfg.BOOTBLOCK_NAME_LEN
      + cfg.BOOTBLOCK_SIZE - 12 = S - 12 := by omega
  have h3 : host_load32 cfg r.2.map (S - 12) = S := by
    rw [← hr]
    simp only [lar_add_bootblock, annotate_bootblock]
    rw [hp]
    exact host_load32_store32 _ _ _ _ hS
  have h4 : ∀ i, S - 8 ≤ i → i < S → r.2.map i = 0 := by
    intro i hi1 hi2
    rw [← hr]
    simp only [lar_add_bootblock, annotate_bootblock]
    rw [hp, host_store32_out _ _ _ _ _ (by omega), memset_in _ _ _ _ _ (by omega) (by omega)]
  have h5 : lar_read_size cfg r.2 = S := by
    unfold lar_read_size
    rw [h2]
    have e : u32 ((S : Int) - 12) = S - 12 := by unfold u32; omega
    rw [e, h3, Nat.mod_eq_of_lt hS]
  refine ⟨h1, h2, h3, h4, h5, ?_, ?_⟩
  · intro ha hf hm
    have h := (lar_open_archive_size_check_aux cfg w S r.2.map (by omega)).2
      (by rw [h3, Nat.mod_eq_of_lt hS]) ha hf hm
    rw [h]
    congr 1
    cases r with
    | mk a b => cases b with
      | mk m sz => simp only at h2; rw [h2]
  · intro he ha hc hm
    unfold lar_new_archive
    rw [he, ha, hc, hm]
    simp only [Bool.not_true, Bool.false_eq_true, if_false]
    rw [hr, if_neg (by simp [h1])]

theorem new_archive_size_field_witness :
    lar_read_size lar_h (created 30000) = 30000 ∧
    lar_open_archive lar_h (plain_world one_file 0) 30000 (created 30000).map
      = some (created 30000) ∧
    lar_new_archive lar_h (plain_world one_file 0) (fun _ => 0) 30000 = some (created 30000) :=
  have h := new_archive_size_field lar_h (by decide) (plain_world one_file 0) (fun _ => 0) 30000
    (by decide) (by decide) (0, created 30000) rfl
  ⟨h.2.2.2.2.1, h.2.2.2.2.2.1 rfl rfl rfl, h.2.2.2.2.2.2 rfl rfl rfl rfl⟩

/-- C6, free-space locator. With the chain `o_0 = 0`,
`o_{k+1} = o_k + get_next_offset(header at o_k)` (a `u32` sum) and a committed
index being one whose offset is below the bootblock offset and carries the
magic: if all indices below `k` are committed and `o_k` is below the bootblock
offset without the magic, `lar_empty_offset` returns `o_k`; if all indices
below `k` are committed and `o_k` is at or beyond the bootblock offset, it
returns `-1`; and it returns `-1` only in that case, any other value only in
the first case. The results hold for every number of loop steps above `k`. -/
theorem lar_empty_offset_chain (cfg : Config) (lar : Archive) :
    (∀ k, (∀ j, j < k → committed cfg lar j) →
      chain cfg lar k < get_bootblock_offset cfg lar.size →
      memcmp_eq lar.map (chain cfg lar k) cfg.MAGIC 8 = false →
      ∀ fuel, k < fuel → lar_empty_offset cfg lar fuel = some (chain cfg lar k)) ∧
    (∀ k, (∀ j, j < k → committed cfg lar j) →
      get_bootblock_offset cfg lar.size ≤ chain cfg lar k →
      ∀ fuel, k < fuel → lar_empty_offset cfg lar fuel = some neg1) ∧
    (∀ fuel, lar_empty_offset cfg lar fuel = some neg1 →
      ∃ k, k < fuel ∧ (∀ j, j < k → committed cfg lar j) ∧
        get_bootblock_offset cfg lar.size ≤ chain cfg lar k) ∧
    (∀ fuel o, lar_empty_offset cfg lar fuel = some o → o ≠ neg1 →
      ∃ k, k < fuel ∧ (∀ j, j < k → committed cfg lar j) ∧ chain cfg lar k = o ∧
        o < get_bootblock_offset cfg lar.size ∧ memcmp_eq lar.map o cfg.MAGIC 8 = false) := by
  have hg := get_bootblock_offset_lt cfg lar.size
  refine ⟨?_, ?_, ?_, ?_⟩
  · intro k hk hlt hm fuel hf
    obtain ⟨n, rfl⟩ : ∃ n, fuel = k + (n + 1) := ⟨fuel - k - 1, by omega⟩
    unfold lar_empty_offset
    rw [lar_empty_offset_loop_chain cfg lar k hk, lar_empty_offset_loop_stop]
    · simp only [Option.map_some', ge_iff_le]
      rw [if_neg (by omega)]
    · intro hc; rw [hm] at hc; exact absurd hc.2 (by simp)
  · intro k hk hge fuel hf
    obtain ⟨n, rfl⟩ : ∃ n, fuel = k + (n + 1) := ⟨fuel - k - 1, by omega⟩
    unfold lar_empty_offset
    rw [lar_empty_offset_loop_chain cfg lar k hk, lar_empty_offset_loop_stop]
    · simp only [Option.map_some', ge_iff_le]
      rw [if_pos hge]
    · intro hc; omega
  · intro fuel h
    unfold lar_empty_offset at h
    cases hl : lar_empty_offset_loop cfg lar fuel 0 with
    | none => rw [hl] at h; simp at h
    | some o =>
      rw [hl] at h
      simp only [Option.map_some', ge_iff_le, Option.some.injEq] at h
      obtain ⟨k, _, h2, h3, h4, h5⟩ := lar_empty_offset_loop_inv cfg lar fuel 0 o hl
      refine ⟨k, by omega, fun j hj => h3 j (by omega) (by omega), ?_⟩
      by_cases hge : get_bootblock_offset cfg lar.size ≤ o
      · rw [h4]; exact hge
      · rw [if_neg hge] at h
        unfold neg1 at h
        omega
  · intro fuel o h hne
    unfold lar_empty_offset at h
    cases hl : lar_empty_offset_loop cfg lar fuel 0 with
    | none => rw [hl] at h; simp at h
    | some o' =>
      rw [hl] at h
      simp only [Option.map_some', ge_iff_le, Option.some.injEq] at h
      obtain ⟨k, _, h2, h3, h4, h5⟩ := lar_empty_offset_loop_inv cfg lar fuel 0 o' hl
      by_cases hge : get_bootblock_offset cfg lar.size ≤ o'
      · rw [if_pos hge] at h; exact absurd h.symm hne
      · rw [if_neg hge] at h
        subst h
        refine ⟨k, by omega, fun j hj => h3 j (by omega) (by omega), h4, by omega, ?_⟩
        cases hm : memcmp_eq lar.map o' cfg.MAGIC 8
        · rfl
        · exfalso; apply h5; unfold committed; rw [h4]; exact ⟨by omega, hm⟩

theorem lar_empty_offset_chain_witness :
    lar_empty_offset lar_h (created 30000) 1 = some (chain lar_h (created 30000) 0) ∧
    lar_empty_offset lar_h full_archive 2 = some neg1 :=
  ⟨(lar_empty_offset_chain lar_h (created 30000)).1 0 (fun j hj => absurd hj (Nat.not_lt_zero j))
      (by decide) (by decide) 1 (by decide),
   (lar_empty_offset_chain lar_h full_archive).2.1 1
      (fun j hj => by
        have e : j = 0 := by omega
        subst e
        decide)
      (by decide) 2 (by decide)⟩

/-- C7, add on a full archive. The claim asks that `lar_add_file` fail and
leave the bytes alone when `lar_empty_offset` reports `-1`. The code stores the
`-1` in the `u32` offset and goes on: in the 20588-byte archive filled by the
31-byte file `a`, the locator returns `-1`, yet adding the one-byte file `b`
returns 0 and the payload byte 66 lands at offset 31 of the mapping, inside the
record of `a`, where a 0 stood. -/
theorem add_on_full_archive_writes :
    lar_new_archive lar_h (plain_world two_files (-4096)) (fun _ => 0) 20588
      = some (created 20588) ∧
    lar_add_file lar_h (plain_world two_files (-4096)) (created 20588) [97] 1
      = some (0, full_archive) ∧
    lar_empty_offset lar_h full_archive 2 = some neg1 ∧
    (lar_add_file lar_h (plain_world two_files (-4096)) full_archive [98] 2).map
      (fun r => (r.1, r.2.map 31)) = some (0, 66) ∧
    full_archive.map 31 = 0 :=
  ⟨rfl, rfl, by decide, by decide, by decide⟩

/-- C8, no write before the checks. Whenever `lar_add_file` returns `-1`, the
archive it leaves is the archive it was given. The three failures named by the
claim return `-1` with the archive untouched: a `u32` sum
`offset + hlen + complen` at or beyond the bootblock offset, an empty stored
name after the colon, and a source that cannot be opened. -/
theorem lar_add_file_failure_leaves_archive (cfg : Config) (w : World) (lar : Archive)
    (name : Bytes) (fuel : Nat) (r : Int × Archive)
    (hr : lar_add_file cfg w lar name fuel = some r) :
    (r.1 = -1 → r.2 = lar) ∧
    (∀ o algo0 filename pathname content,
      lar_empty_offset cfg lar fuel = some o →
      split_name w name = some (algo0, filename, pathname) →
      w.open_file filename = some content →
      get_bootblock_offset cfg lar.size ≤
        (o + hlen_of cfg pathname + (compress_step w algo0 content).2.2) % 4294967296 →
      r = (-1, lar)) ∧
    (split_name w name = none → r = (-1, lar)) ∧
    (∀ algo0 filename pathname, split_name w name = some (algo0, filename, pathname) →
      w.open_file filename = none → r = (-1, lar)) := by
  unfold lar_add_file at hr
  cases ho : lar_empty_offset cfg lar fuel with
  | none => rw [ho] at hr; simp at hr
  | some o =>
    rw [ho] at hr
    simp only [Option.map_some', Option.some.injEq] at hr
    subst hr
    refine ⟨?_, ?_, ?_, ?_⟩
    · intro h
      rw [lar_add_file_at_fail cfg w lar o name (by rw [h]; decide)]
    · intro o' algo0 filename pathname content ho' hs hop hcap
      cases ho'
      apply lar_add_file_at_fail
      intro h0
      obtain ⟨a, f, p, c, h1, h2, _, _, _, h6, _⟩ := lar_add_file_at_ok cfg w lar o name h0
      rw [hs] at h1
      cases h1
      rw [hop] at h2
      cases h2
      omega
    · intro hs
      apply lar_add_file_at_fail
      intro h0
      obtain ⟨a, f, p, c, h1, _⟩ := lar_add_file_at_ok cfg w lar o name h0
      rw [hs] at h1
      cases h1
    · intro algo0 filename pathname hs hop
      apply lar_add_file_at_fail
      intro h0
      obtain ⟨a, f, p, c, h1, h2, _⟩ := lar_add_file_at_ok cfg w lar o name h0
      rw [hs] at h1
      cases h1
      rw [hop] at h2
      cases h2

theorem lar_add_file_failure_leaves_archive_witness :
    lar_add_file lar_h (plain_world one_file (-4096)) (created 30000) [97, 58] 1
      = some (-1, created 30000) ∧
    (((-1 : Int), created 30000).1 = -1 → ((-1 : Int), created 30000).2 = created 30000) :=
  ⟨rfl, (lar_add_file_failure_leaves_archive lar_h (plain_world one_file (-4096)) (created 30000)
    [97, 58] 1 (-1, created 30000) rfl).1⟩

/-- C9, next-entry offset. For a header whose `x = payload_offset +
stored_length` satisfies `0 < x ≤ 2^32 - 16`, `get_next_offset` returns
`((x - 1) & ~15) + 16`; this value is a multiple of 16, is at least `x`, is
the least such multiple, equals `x` when 16 divides `x`, and is below
`x + 16`. -/
theorem get_next_offset_round_up (cfg : Config) (m : Mem) (hdr : Nat)
    (hpos : 0 < record_extent cfg m hdr) (hle : record_extent cfg m hdr ≤ 4294967296 - 16) :
    get_next_offset cfg m hdr = round_up_16 (record_extent cfg m hdr) ∧
    16 ∣ get_next_offset cfg m hdr ∧
    record_extent cfg m hdr ≤ get_next_offset cfg m hdr ∧
    (∀ y, 16 ∣ y → record_extent cfg m hdr ≤ y → get_next_offset cfg m hdr ≤ y) ∧
    (16 ∣ record_extent cfg m hdr → get_next_offset cfg m hdr = record_extent cfg m hdr) ∧
    get_next_offset cfg m hdr < record_extent cfg m hdr + 16 := by
  unfold record_extent at *
  have e := get_next_offset_eq cfg m hdr hpos hle
  rw [round_up_16_eq _ (by omega), e]
  refine ⟨rfl, ?_, ?_, ?_, ?_, ?_⟩
  · omega
  · omega
  · intro y hy hxy
    obtain ⟨k, rfl⟩ := hy
    omega
  · intro hx
    obtain ⟨k, hk⟩ := hx
    omega
  · omega

theorem get_next_offset_round_up_witness :
    0 < record_extent lar_h (store_htonl (store_htonl (fun _ => 0) 16 5) 20 32) 0 ∧
    get_next_offset lar_h (store_htonl (store_htonl (fun _ => 0) 16 5) 20 32) 0 = 48 := by
  refine ⟨by decide, ?_⟩
  have h := get_next_offset_round_up lar_h (store_htonl (store_htonl (fun _ => 0) 16 5) 20 32) 0
    (by decide) (by decide)
  rw [h.1]
  decide

/-- C10, header record size. For every stored name, `hlen` equals
`round_up_16(sizeof(struct lar_header) + min(strlen + 1, MAX_PATHLEN))`, is a
multiple of 16, and after a successful add at an offset `o` with
`o + hlen < 2^32` the payload-offset field of the header at `o` holds `hlen`. -/
theorem hlen_is_round_up_16 (cfg : Config) (hwf : cfg.WF) (pathname : Bytes) :
    hlen_of cfg pathname
      = round_up_16 (cfg.sizeof_lar_header + min (pathname.length + 1) cfg.MAX_PATHLEN) ∧
    16 ∣ hlen_of cfg pathname ∧
    (∀ (w : World) (lar : Archive) (o : Nat) (name : Bytes) (algo0 : Nat) (filename : Bytes),
      split_name w name = some (algo0, filename, pathname) →
      (lar_add_file_at cfg w lar o name).1 = 0 →
      o + hlen_of cfg pathname < 4294967296 →
      ntohl_at (lar_add_file_at cfg w lar o name).2.map (o + cfg.off_offset)
        = hlen_of cfg pathname) := by
  have hs := wf_sizes cfg hwf
  have hb := hlen_bounds cfg hwf pathname
  have hp := pathlen_of_eq cfg pathname
  refine ⟨?_, hb.2.2.1, ?_⟩
  · rw [round_up_16_eq _ (by omega), hlen_of_eq cfg hwf, ← hp]
    omega
  · intro w lar o name algo0 filename hsp hok ho
    obtain ⟨a, f, p, c, h1, _, _, _, _, _, _, h8⟩ := lar_add_file_at_ok cfg w lar o name hok
    rw [hsp] at h1
    cases h1
    rw [h8]
    exact write_record_offset_field cfg hwf w lar.map o _ _ _ _ pathname ho

theorem hlen_is_round_up_16_witness :
    hlen_of lar_h [97] = 32 ∧
    ntohl_at (lar_add_file_at lar_h (plain_world one_file (-4096)) (created 30000) 0 [97]).2.map
      (0 + lar_h.off_offset) = 32 := by
  have h := hlen_is_round_up_16 lar_h (by decide) [97]
  have e : hlen_of lar_h [97] = 32 := by decide
  refine ⟨e, ?_⟩
  rw [h.2.2 (plain_world one_file (-4096)) (created 30000) 0 [97] 0 [97] (by decide) (by decide)
    (by decide), e]

/-- C11, the record written by add. Let `lar_add_file` return 0 on `lar`, where
the locator found the free offset `o`, the argument splits into the source path
and the stored name `pathname`, the source holds `content`, and the compression
step yields the algorithm `a`, the stored bytes `temp` and the stored length
`c`; let the header end below `2^32`. Then the resulting archive holds at `o`
the 8 bytes of the magic; the fields `compression`, `reallen`, `len` and
`offset` read as big-endian 32-bit integers are `a`, the source length, `c` and
the header size `hlen` (`a` and the source length as 32-bit values); the bytes
after the fixed header are the first `min(strlen(name), MAX_PATHLEN - 1)` bytes
of the stored name, followed by zero bytes up to `o + hlen`, at least one of
them; and the `c` bytes from `o + hlen` on are the stored payload. -/
theorem add_writes_record (cfg : Config) (hwf : cfg.WF) (w : World) (lar lar' : Archive)
    (name filename pathname content temp : Bytes) (algo0 a c o fuel : Nat)
    (hoff : lar_empty_offset cfg lar fuel = some o)
    (hadd : lar_add_file cfg w lar name fuel = some (0, lar'))
    (hsplit : split_name w name = some (algo0, filename, pathname))
    (hopen : w.open_file filename = some content)
    (hc : compress_step w algo0 content = (a, temp, c))
    (ho : o + hlen_of cfg pathname < 4294967296) :
    (∀ i, i < 8 → lar'.map (o + i) = cfg.MAGIC.getD i 0) ∧
    ntohl_at lar'.map (o + cfg.off_compression) = a % 4294967296 ∧
    ntohl_at lar'.map (o + cfg.off_reallen) = content.length % 4294967296 ∧
    ntohl_at lar'.map (o + cfg.off_len) = c ∧
    ntohl_at lar'.map (o + cfg.off_offset) = hlen_of cfg pathname ∧
    (∀ i, i < min pathname.length (cfg.MAX_PATHLEN - 1) →
      lar'.map (o + cfg.sizeof_lar_header + i) = pathname.getD i 0) ∧
    (∀ i, cfg.sizeof_lar_header + min pathname.length (cfg.MAX_PATHLEN - 1) ≤ i →
      i < hlen_of cfg pathname → lar'.map (o + i) = 0) ∧
    cfg.sizeof_lar_header + min pathname.length (cfg.MAX_PATHLEN - 1) < hlen_of cfg pathname ∧
    (∀ i, i < c → lar'.map (o + hlen_of cfg pathname + i) = temp.getD i 0) := by
  obtain ⟨hm, _, _⟩ := lar_add_file_success_inv cfg w lar lar' name filename pathname content
    temp algo0 a c o fuel hoff hadd hsplit hopen hc
  have hb := hlen_bounds cfg hwf pathname
  have hp := pathlen_of_eq cfg pathname
  have hs := wf_sizes cfg hwf
  have hcl : c < 4294967296 := by
    have := compress_step_lt w algo0 content
    rw [hc] at this
    exact this
  have hmin : min pathname.length (cfg.MAX_PATHLEN - 1) = pathlen_of cfg pathname - 1 := by
    omega
  rw [hm, hmin]
  refine ⟨?_, ?_, ?_, ?_, ?_, ?_, ?_, ?_, ?_⟩
  · exact fun i hi => write_record_magic cfg hwf w lar.map o a _ temp c pathname ho i hi
  · exact write_record_compression_field cfg hwf w lar.map o a _ temp c pathname ho
  · exact write_record_reallen_field cfg hwf w lar.map o a _ temp c pathname ho
  · rw [write_record_len_field cfg hwf w lar.map o a _ temp c pathname ho, Nat.mod_eq_of_lt hcl]
  · exact write_record_offset_field cfg hwf w lar.map o a _ temp c pathname ho
  · exact fun i hi => write_record_name cfg hwf w lar.map o a _ temp c pathname ho i hi
  · exact fun i h1 h2 => write_record_padding cfg hwf w lar.map o a _ temp c pathname ho i h1 h2
  · omega
  · exact fun i hi => write_record_payload cfg hwf w lar.map o a _ temp c pathname ho i hi

theorem add_writes_record_witness :
    lar_empty_offset lar_h one_entry 2 = some 64 ∧
    (lar_add_file lar_h toy_world one_entry [99] 2).map (fun r => r.1) = some 0 ∧
    compress_step toy_world 1 [7, 8, 9] = (1, [8, 9], 2) ∧
    ntohl_at (lar_add_file_at lar_h toy_world one_entry 64 [99]).2.map (64 + lar_h.off_len) = 2 ∧
    ntohl_at (lar_add_file_at lar_h toy_world one_entry 64 [99]).2.map (64 + lar_h.off_offset)
      = hlen_of lar_h [99] :=
  have h := add_writes_record lar_h (by decide) toy_world one_entry
    (lar_add_file_at lar_h toy_world one_entry 64 [99]).2 [99] [99] [99] [7, 8, 9] [8, 9]
    1 1 2 64 2 (by decide) rfl (by decide) (by decide) (by decide) (by decide)
  ⟨by decide, by decide, by decide, h.2.2.2.1, h.2.2.2.2.1⟩

/-- C12, packing invariant. The claim asks that in every archive reached from a
fresh one by successful calls of `lar_add_file` every byte from the first free
offset up to the bootblock offset is still `0xFF`. In the fresh archive of
20652 bytes (bootblock offset 128) the files `a` (one byte) and `b` (40 bytes)
are added with status 0; the records take `[0, 33)` and `[48, 120)`, the next
header offset is 128, and the locator answers `-1`. Adding `c` (30 bytes of
value 7) then returns 0 as well: the `-1` is used as the `u32` offset, and the
payload lands at offsets 31 to 60 of the mapping, over the records of `a` and
`b`. Afterwards the magic of `b` is gone, the locator reports the free offset
48, and the 16 bytes from 48 on are 13 payload bytes of `c` and what is left of
the `reallen` field of `b`, not `0xFF`. -/
theorem packing_broken_by_add_on_full :
    lar_new_archive lar_h (plain_world three_files (-4096)) (fun _ => 0) 20652
      = some (created 20652) ∧
    (lar_add_file lar_h (plain_world three_files (-4096)) (created 20652) [97] 3).map
      (fun r => r.1) = some 0 ∧
    (lar_add_file lar_h (plain_world three_files (-4096))
      (lar_add_file_at lar_h (plain_world three_files (-4096)) (created 20652) 0 [97]).2
      [98] 3) = some (0, two_entries_full) ∧
    lar_empty_offset lar_h two_entries_full 3 = some neg1 ∧
    lar_add_file lar_h (plain_world three_files (-4096)) two_entries_full [99] 3
      = some (0, overwritten) ∧
    lar_empty_offset lar_h overwritten 3 = some 48 ∧
    get_bootblock_offset lar_h overwritten.size = 128 ∧
    read_bytes overwritten.map 48 16 = [7, 7, 7, 7, 7, 7, 7, 7, 7, 7, 7, 7, 7, 0, 0, 40] :=
  ⟨rfl, by decide, rfl, by decide, rfl, by decide, by decide, by decide⟩

/-- C13, scans run to completion. The claim asks that the scans of
`lar_empty_offset`, `lar_list_files` and `lar_extract_files` end on every
archive content. The file `stuck_archive` of 30000 bytes is accepted by
`lar_open_archive`; its first header carries the magic with `len = 0` and
`offset = 0`, for which `get_next_offset` is 0. The three scans stay on that
header: whatever the number of steps, `lar_empty_offset` has produced no
result, `lar_list_files` has not left its loop and `lar_extract_files` has
returned no status. -/
theorem scans_never_finish :
    lar_open_archive lar_h (plain_world one_file 0) 30000 stuck_archive.map = some stuck_archive ∧
    get_next_offset lar_h stuck_archive.map 0 = 0 ∧
    (∀ fuel, lar_empty_offset lar_h stuck_archive fuel = none) ∧
    (∀ fuel files, (lar_list_files lar_h stuck_archive files fuel).2 = false) ∧
    (∀ fuel files, (lar_extract_files lar_h (plain_world one_file 0) stuck_archive files fuel).2
      = none) := by
  have hp : 0 < get_bootblock_offset lar_h stuck_archive.size := by decide
  have hm : memcmp_eq stuck_archive.map 0 lar_h.MAGIC 8 = true := by decide
  have hs : strncmp_eq stuck_archive.map 0 lar_h.MAGIC 8 = true := by decide
  have h0 : get_next_offset lar_h stuck_archive.map 0 = 0 := by decide
  refine ⟨?_, h0, ?_, ?_, ?_⟩
  · exact (lar_open_archive_size_check_aux lar_h (plain_world one_file 0) 30000 stuck_archive.map
      (by decide)).2 (by decide) rfl rfl rfl
  · intro fuel
    unfold lar_empty_offset
    rw [lar_empty_offset_loop_stuck lar_h stuck_archive 0 hp hm h0]
    rfl
  · intro fuel files
    have h := lar_list_loop_stuck lar_h stuck_archive files fuel 0 hp hs h0 fuel
    unfold lar_list_files
    simp only [h, Bool.not_false, if_true]
  · intro fuel files
    have h := lar_extract_loop_stuck lar_h (plain_world one_file 0) stuck_archive files fuel 0 hp hs
      h0 (fun _ => rfl) rfl fuel 0
    unfold lar_extract_files
    simp only [h]

/-- C14, counterexample. The file `a` is added twice to the fresh archive of
30000 bytes, both calls returning 0; the archive then holds two committed
entries with the stored name `a`, at 0 and at 48. With the filter `{a}`,
`lar_list_files` prints two lines and `lar_extract_files` writes the file `a`
twice, so the filter with one existing name selects two records. -/
theorem filter_selects_two :
    lar_add_file lar_h (plain_world one_file (-4096)) (created 30000) [97] 3
      = some (lar_add_file_at lar_h (plain_world one_file (-4096)) (created 30000) 0 [97]) ∧
    (lar_add_file_at lar_h (plain_world one_file (-4096)) (created 30000) 0 [97]).1 = 0 ∧
    lar_add_file lar_h (plain_world one_file (-4096))
      (lar_add_file_at lar_h (plain_world one_file (-4096)) (created 30000) 0 [97]).2 [97] 3
      = some (0, twice_added) ∧
    (lar_list_files lar_h twice_added (some [[97]]) 8).1.map (fun l => (l.name, l.addr))
      = [([97], 32), ([97], 80)] ∧
    lar_extract_files lar_h (plain_world one_file (-4096)) twice_added (some [[97]]) 8
      = ([([97], [1, 2, 3, 4]), ([97], [1, 2, 3, 4])], some 0) :=
  ⟨rfl, by decide, rfl, by decide, by decide⟩

/-- C14, filtering. `file_in_list` answers 1 exactly when the filter is absent or
holds the given name. With the filter `{n}`, `lar_list_files` prints exactly
those lines of the unfiltered listing whose name is `n`, in the same order and
with the same loop state, and `lar_extract_files`, when every write and
allocation succeeds, writes exactly those files of the unfiltered run whose
name is `n`, with the same status. When the unfiltered listing has run to its
end and none of its lines (the bootblock line among them) has the name `n`,
the filter `{n}` selects no record and `lar_extract_files` returns 0. -/
theorem filter_selects_by_name (cfg : Config) (w : World) (lar : Archive) (n : Bytes)
    (fuel : Nat) :
    (∀ (files : Option (List Bytes)) (name : Bytes),
      file_in_list files name = true ↔ files = none ∨ ∃ l, files = some l ∧ name ∈ l) ∧
    lar_list_files cfg lar (some [n]) fuel =
      ((lar_list_files cfg lar none fuel).1.filter (fun l => decide (l.name = n)),
       (lar_list_files cfg lar none fuel).2) ∧
    ((∀ x, w.write_ok x = true) → w.alloc_ok = true →
      lar_extract_files cfg w lar (some [n]) fuel =
        ((lar_extract_files cfg w lar none fuel).1.filter (fun e => decide (e.1 = n)),
         (lar_extract_files cfg w lar none fuel).2)) ∧
    ((lar_list_files cfg lar none fuel).2 = true →
      (∀ l, l ∈ (lar_list_files cfg lar none fuel).1 → l.name ≠ n) →
      lar_list_files cfg lar (some [n]) fuel = ([], true) ∧
      lar_extract_files cfg w lar (some [n]) fuel = ([], some 0)) := by
  refine ⟨?_, lar_list_files_filter cfg lar n fuel,
    fun hw ha => lar_extract_files_filter cfg w lar n hw ha fuel, ?_⟩
  · intro files name
    cases files with
    | none => simp [file_in_list]
    | some l => simp [file_in_list, file_in_list_loop_iff]
  · intro hdone hno
    have hl : (lar_list_loop cfg lar none fuel fuel 0).2 = true := by
      cases h : (lar_list_loop cfg lar none fuel fuel 0).2
      · unfold lar_list_files at hdone
        simp [h] at hdone
      · rfl
    have hfull := lar_list_files_bootblock cfg lar none fuel hl rfl
    rw [hfull] at hno
    have hb : cfg.BOOTBLOCK_NAME ≠ n :=
      hno _ (List.mem_append_right _ (List.mem_singleton_self _))
    constructor
    · rw [lar_list_files_filter, hdone]
      congr 1
      rw [List.filter_eq_nil_iff]
      intro l hl'
      rw [hfull] at hl'
      simpa using hno l hl'
    · have he := extract_none_selected cfg w lar n fuel fuel 0 0 hl
        (fun l hl' => hno l (by simp [hl']))
      unfold lar_extract_files
      simp only [he, file_in_list_single]
      simp [hb]

theorem filter_selects_by_name_witness :
    lar_list_files lar_h (created 30000) (some [[120]]) 4 = ([], true) ∧
    lar_extract_files lar_h (plain_world one_file 0) (created 30000) (some [[120]]) 4
      = ([], some 0) ∧
    lar_extract_files lar_h (plain_world one_file 0) twice_added (some [[97]]) 4 =
      ((lar_extract_files lar_h (plain_world one_file 0) twice_added none 4).1.filter
          (fun e => decide (e.1 = [97])),
       (lar_extract_files lar_h (plain_world one_file 0) twice_added none 4).2) :=
  have h := (filter_selects_by_name lar_h (plain_world one_file 0) (created 30000) [120] 4).2.2.2
    (by decide) (by decide)
  ⟨h.1, h.2,
    (filter_selects_by_name lar_h (plain_world one_file 0) twice_added [97] 4).2.2.1
      (fun _ => rfl) rfl⟩

/-- C18, counterexample. The file `wrapping_archive` of 30000 bytes is accepted
by `lar_open_archive`. Its header at 64 has the next-header distance
`2^32 - 32`: the 32-bit offset of `lar_empty_offset` wraps to 32, where the
magic stands inside the payload of the first entry, so the locator steps over
0, 64, 32 and stays at 32, while the pointer of `lar_list_files` and
`lar_extract_files` leaves the archive after the headers at 0 and 64, and both
go on to the bootblock. Separately, in `twice_added` the locator steps over
the headers at 0 and 48, while `lar_extract_files` with failing writes returns
-1 at the first entry and visits no further header. -/
theorem walker_sequences_differ :
    lar_open_archive lar_h (plain_world one_file 0) 30000 wrapping_archive.map
      = some wrapping_archive ∧
    get_next_offset lar_h wrapping_archive.map 64 = 4294967264 ∧
    lar_empty_offset_steps lar_h wrapping_archive 4 0 = [0, 64, 32, 32] ∧
    scan_steps lar_h wrapping_archive 4 0 = [0, 64] ∧
    (lar_list_files lar_h wrapping_archive none 8).1.map (fun l => l.addr) = [32, 96, 9520] ∧
    (lar_extract_files lar_h (plain_world one_file 0) wrapping_archive none 8).1.map
      (fun e => e.1) = [[], [], lar_h.BOOTBLOCK_NAME] ∧
    lar_empty_offset_steps lar_h twice_added 8 0 = [0, 48] ∧
    lar_extract_files lar_h failing_writes twice_added none 8 = ([], some (-1)) := by
  refine ⟨?_, ?_, ?_, ?_, ?_, ?_, ?_, ?_⟩
  · exact (lar_open_archive_size_check_aux lar_h (plain_world one_file 0) 30000
      wrapping_archive.map (by decide)).2 (by decide) rfl rfl rfl
  · decide
  · decide
  · decide
  · decide
  · decide
  · decide
  · decide

/-- C18, one walker. Let no header offset that `lar_empty_offset` steps over in
its first `fuel` iterations wrap the 32-bit sum with its next-header distance.
Then the header offsets at which the scan of `lar_list_files` and
`lar_extract_files` finds a valid entry are the offsets `lar_empty_offset`
steps over, in the same order, and these are the offsets of the spec's chain
for as long as the entries are committed. When the names at these headers are
NUL-terminated, `lar_list_files` without a filter prints one line per such
offset, in order, followed by at most the bootblock line, and
`lar_extract_files`, when every write and allocation succeeds, writes one
file per such offset, in order, followed by at most the bootblock. -/
theorem one_walker_without_wrap (cfg : Config) (hwf : cfg.WF) (w : World) (lar : Archive)
    (fuel : Nat)
    (hnowrap : ∀ q ∈ lar_empty_offset_steps cfg lar fuel 0,
      q + get_next_offset cfg lar.map q < 4294967296) :
    scan_steps cfg lar fuel 0 = lar_empty_offset_steps cfg lar fuel 0 ∧
    lar_empty_offset_steps cfg lar fuel 0 =
      ((List.range fuel).takeWhile (fun j => decide (committed cfg lar j))).map (chain cfg lar) ∧
    ((∀ q ∈ lar_empty_offset_steps cfg lar fuel 0,
        (cstring lar.map fuel (q + cfg.sizeof_lar_header)).isSome = true) →
      (∃ tail, tail.length ≤ 1 ∧ (lar_list_files cfg lar none fuel).1 =
        (lar_empty_offset_steps cfg lar fuel 0).map (entry_line cfg lar fuel) ++ tail) ∧
      ((∀ x, w.write_ok x = true) → w.alloc_ok = true →
        ∃ tail, tail.length ≤ 1 ∧ (lar_extract_files cfg w lar none fuel).1 =
          (lar_empty_offset_steps cfg lar fuel 0).map
            (fun q => ((cstring lar.map fuel (q + cfg.sizeof_lar_header)).getD [],
              entry_data cfg w lar.map q)) ++ tail)) := by
  have heq := scan_steps_eq cfg hwf lar fuel 0 hnowrap
  refine ⟨heq, ?_, ?_⟩
  · have h := steps_chain cfg lar fuel 0
    rw [List.range_eq_range']
    exact h
  · intro hname
    rw [← heq] at hname ⊢
    refine ⟨?_, ?_⟩
    · obtain ⟨tail, h1, h2⟩ := list_files_tail cfg lar none fuel
      exact ⟨tail, h1, by rw [h2, list_loop_steps cfg lar fuel fuel 0 hname]⟩
    · intro hw ha
      obtain ⟨tail, h1, h2⟩ := extract_files_tail cfg w lar none fuel
      exact ⟨tail, h1, by rw [h2, extract_loop_steps cfg w lar fuel fuel 0 0 hw ha hname]⟩

theorem one_walker_without_wrap_witness :
    (∀ q ∈ lar_empty_offset_steps lar_h twice_added 8 0,
      q + get_next_offset lar_h twice_added.map q < 4294967296) ∧
    scan_steps lar_h twice_added 8 0 = lar_empty_offset_steps lar_h twice_added 8 0 ∧
    lar_empty_offset_steps lar_h twice_added 8 0 = [0, 48] :=
  ⟨by decide,
   (one_walker_without_wrap lar_h (by decide) (plain_world one_file 0) twice_added 8
     (by decide)).1,
   by decide⟩

/-- C19, frame of add. Let `lar_add_file` return 0 on `lar`, where the locator
found the free offset `o` and the call wrote a header of size `hlen` and `c`
stored bytes, with `o + hlen + c` below the bootblock offset as natural
numbers. Then the size of the archive is unchanged, every byte that differs
after the call lies in `[o, o + hlen + c)`, every byte below `o` (the entries
committed before) is unchanged, and every byte at or above the bootblock offset
(the bootblock region with the trailing size field) is unchanged. -/
theorem add_frame (cfg : Config) (hwf : cfg.WF) (w : World) (lar lar' : Archive)
    (name filename pathname content temp : Bytes) (algo0 a c o fuel : Nat)
    (hoff : lar_empty_offset cfg lar fuel = some o)
    (hadd : lar_add_file cfg w lar name fuel = some (0, lar'))
    (hsplit : split_name w name = some (algo0, filename, pathname))
    (hopen : w.open_file filename = some content)
    (hc : compress_step w algo0 content = (a, temp, c))
    (hroom : o + hlen_of cfg pathname + c < get_bootblock_offset cfg lar.size) :
    lar'.size = lar.size ∧
    (∀ i, lar'.map i ≠ lar.map i → o ≤ i ∧ i < o + hlen_of cfg pathname + c) ∧
    (∀ i, i < o → lar'.map i = lar.map i) ∧
    (∀ i, get_bootblock_offset cfg lar.size ≤ i → lar'.map i = lar.map i) := by
  obtain ⟨hm, hsz, _⟩ := lar_add_file_success_inv cfg w lar lar' name filename pathname content
    temp algo0 a c o fuel hoff hadd hsplit hopen hc
  have hg := get_bootblock_offset_lt cfg lar.size
  have ho : o + hlen_of cfg pathname < 4294967296 := by omega
  have hlow : ∀ i, i < o → lar'.map i = lar.map i := fun i hi => by
    rw [hm]; exact write_record_below cfg hwf w lar.map o a _ temp c pathname ho i hi
  have hhigh : ∀ i, o + hlen_of cfg pathname + c ≤ i → lar'.map i = lar.map i := fun i hi => by
    rw [hm]; exact write_record_above cfg hwf w lar.map o a _ temp c pathname ho i hi
  refine ⟨hsz, ?_, hlow, fun i hi => hhigh i (by omega)⟩
  intro i hne
  by_contra hcon
  apply hne
  by_cases h1 : i < o
  · exact hlow i h1
  · exact hhigh i (by omega)

theorem add_frame_witness :
    lar_empty_offset lar_h one_entry 2 = some 64 ∧
    (lar_add_file lar_h toy_world one_entry [99] 2).map (fun r => r.1) = some 0 ∧
    64 + hlen_of lar_h [99] + 2 < get_bootblock_offset lar_h one_entry.size ∧
    (lar_add_file_at lar_h toy_world one_entry 64 [99]).2.size = one_entry.size ∧
    (∀ i, i < 64 →
      (lar_add_file_at lar_h toy_world one_entry 64 [99]).2.map i = one_entry.map i) :=
  have h := add_frame lar_h (by decide) toy_world one_entry
    (lar_add_file_at lar_h toy_world one_entry 64 [99]).2 [99] [99] [99] [7, 8, 9] [8, 9]
    1 1 2 64 2 (by decide) rfl (by decide) (by decide) (by decide) (by decide)
  ⟨by decide, by decide, by decide, h.1, h.2.2.1⟩

/-- C20, frame of the bootblock writer. On an archive whose size `S` is a `u32`
value of at least `BOOTBLOCK_SIZE + sizeof(struct lar_header) +
BOOTBLOCK_NAME_LEN`, `lar_add_bootblock` keeps the size, and every byte it
changes is one of: the magic, the `reallen`, `len` and `offset` fields of the
bootblock header, the reserved name with its NUL, the payload before its last
13 bytes (only when a file is given), and the last 13 bytes of the archive.
Every byte below the bootblock offset and the `checksum` and `compression`
fields of the bootblock header keep their values. When the call returns 0 with
a file, the payload holds the bytes of the file in all but its last 13
positions; whenever it returns 0, the byte at `S - 13` is zero, the four bytes
at `S - 12` hold `S` in host order and the last eight bytes are zero. Without a
file the call returns 0. -/
theorem add_bootblock_frame (cfg : Config) (hwf : cfg.WF) (w : World) (lar : Archive)
    (bootblock : Option Bytes) (hS : lar.size < 4294967296)
    (hR : cfg.BOOTBLOCK_SIZE + cfg.sizeof_lar_header + cfg.BOOTBLOCK_NAME_LEN ≤ lar.size) :
    (lar_add_bootblock cfg w lar bootblock).2.size = lar.size ∧
    (∀ i, (lar_add_bootblock cfg w lar bootblock).2.map i ≠ lar.map i →
      bootblock_written cfg lar.size bootblock.isSome i) ∧
    (∀ i, i < get_bootblock_offset cfg lar.size →
      (lar_add_bootblock cfg w lar bootblock).2.map i = lar.map i) ∧
    (∀ i, (get_bootblock_offset cfg lar.size + cfg.off_checksum ≤ i ∧
        i < get_bootblock_offset cfg lar.size + cfg.off_checksum + 4) ∨
      (get_bootblock_offset cfg lar.size + cfg.off_compression ≤ i ∧
        i < get_bootblock_offset cfg lar.size + cfg.off_compression + 4) →
      (lar_add_bootblock cfg w lar bootblock).2.map i = lar.map i) ∧
    (∀ f content, bootblock = some f → w.open_file f = some content →
      (lar_add_bootblock cfg w lar bootblock).1 = 0 →
      ∀ i, i < cfg.BOOTBLOCK_SIZE - 13 →
        (lar_add_bootblock cfg w lar bootblock).2.map (lar.size - cfg.BOOTBLOCK_SIZE + i)
          = content.getD i 0) ∧
    ((lar_add_bootblock cfg w lar bootblock).1 = 0 →
      (lar_add_bootblock cfg w lar bootblock).2.map (lar.size - 13) = 0 ∧
      host_load32 cfg (lar_add_bootblock cfg w lar bootblock).2.map (lar.size - 12) = lar.size ∧
      ∀ i, lar.size - 8 ≤ i → i < lar.size →
        (lar_add_bootblock cfg w lar bootblock).2.map i = 0) ∧
    (bootblock = none → (lar_add_bootblock cfg w lar bootblock).1 = 0) := by
  have hs := wf_sizes cfg hwf
  have hf := wf_fields cfg hwf
  simp only [field_inside, fields_apart] at hf
  have hg := get_bootblock_offset_eq cfg lar.size hS hR
  obtain ⟨hsz, content, n, ann, hn, hnone, hann, hfile, hmap⟩ :=
    lar_add_bootblock_cases cfg w lar bootblock
  have hframe : ∀ i, ¬ bootblock_written cfg lar.size bootblock.isSome i →
      (lar_add_bootblock cfg w lar bootblock).2.map i = lar.map i := by
    intro i hnot
    unfold bootblock_written at hnot
    simp only [not_or] at hnot
    obtain ⟨h1, h2, h3, h4, h5, h6, h7⟩ := hnot
    have hmem : i < get_bootblock_offset cfg lar.size + cfg.sizeof_lar_header
        + cfg.BOOTBLOCK_NAME_LEN ∨ get_bootblock_offset cfg lar.size + cfg.sizeof_lar_header
        + cfg.BOOTBLOCK_NAME_LEN + n ≤ i := by
      cases hb : bootblock with
      | none => have := hnone hb; omega
      | some f =>
        rw [hb] at h6
        simp only [Option.isSome_some, true_and] at h6
        omega
    have hhead : bootblock_header cfg lar.map (get_bootblock_offset cfg lar.size) i = lar.map i :=
      bootblock_header_out cfg lar.map _ i (by omega)
    rw [hmap]
    cases ann
    · simp only [Bool.false_eq_true, if_false]
      rw [memcpy_out _ _ _ _ _ hmem, hhead]
    · simp only [if_true]
      rw [annotate_bootblock_out cfg _ _ _ _ hs.2.2.1 (by omega), memcpy_out _ _ _ _ _ hmem, hhead]
  refine ⟨hsz, ?_, ?_, ?_, ?_, ?_, ?_⟩
  · intro i hne
    by_contra hnot
    exact hne (hframe i hnot)
  · intro i hi
    apply hframe
    unfold bootblock_written
    omega
  · intro i hi
    apply hframe
    unfold bootblock_written
    simp only [not_or]
    refine ⟨by omega, by omega, by omega, by omega, by omega, ?_, by omega⟩
    intro h
    omega
  · intro f c hb hop hok i hi
    obtain ⟨hc, hnn⟩ := hfile f c hb hop hok
    have ha : ann = true := hann.2 hok
    subst ha hc hnn
    rw [hmap]
    simp only [if_true]
    rw [annotate_bootblock_out cfg _ _ _ _ hs.2.2.1 (by omega),
      memcpy_in _ _ _ _ _ (by omega) (by omega)]
    congr 1
    omega
  · intro hok
    have ha : ann = true := hann.2 hok
    subst ha
    rw [hmap]
    simp only [if_true]
    have hp : get_bootblock_offset cfg lar.size + cfg.sizeof_lar_header + cfg.BOOTBLOCK_NAME_LEN
        + cfg.BOOTBLOCK_SIZE - 12 = lar.size - 12 := by omega
    unfold annotate_bootblock
    simp only []
    rw [hp]
    refine ⟨?_, host_load32_store32 _ _ _ _ hS, ?_⟩
    · rw [host_store32_out _ _ _ _ _ (by omega), memset_in _ _ _ _ _ (by omega) (by omega)]
    · intro i h1 h2
      rw [host_store32_out _ _ _ _ _ (by omega), memset_in _ _ _ _ _ (by omega) (by omega)]
  · intro hb
    subst hb
    rfl

theorem add_bootblock_frame_witness :
    lar_h.BOOTBLOCK_SIZE + lar_h.sizeof_lar_header + lar_h.BOOTBLOCK_NAME_LEN ≤ 30000 ∧
    (lar_add_bootblock lar_h (plain_world (fun _ => none) 0)
      { map := memset (fun _ => 0) 0 255 30000, size := 30000 } none).1 = 0 ∧
    (lar_add_bootblock lar_h (plain_world (fun _ => none) 0)
      { map := memset (fun _ => 0) 0 255 30000, size := 30000 } none).2.size = 30000 :=
  have h := add_bootblock_frame lar_h (by decide) (plain_world (fun _ => none) 0)
    { map := memset (fun _ => 0) 0 255 30000, size := 30000 } none (by decide) (by decide)
  ⟨by decide, h.2.2.2.2.2.2 rfl, h.1⟩

end Lar
